import Mathlib

/-!
# Verification of the timesheet reporting engine

Shallow embedding of the time/expense tracking engine of the repository
(`src/hooks/useFirestoreData.ts`, `src/components/Reports.tsx`, `src/types.ts`)
together with proofs about the claims on its behaviour.

Modelling conventions:
* JavaScript numbers that can become `NaN` are modelled as `Option ℚ` (or
  `Option ℤ` for integral minute counts); `none` stands for `NaN`.  Arithmetic
  on these values propagates `none` exactly as JS arithmetic propagates `NaN`,
  and `NaN < 0` is `false` just as in JS (see `calculateDuration`).
* JS `Date` values that the engine manipulates carry date-only significance
  (the app stores entry dates at local midnight); they are modelled as the
  integral day number since 1970-01-01.  `getMonth`/`getFullYear` are modelled
  by the standard civil-from-days algorithm (`civilFromDays`), and
  `date.getDay()` by `(d + 4) mod 7` (1970-01-01 was a Thursday), with `0` =
  Sunday, exactly like JS.
* `String.prototype.localeCompare` and the default `Array.prototype.sort`
  comparator are modelled by UTF-16 code-unit lexicographic comparison
  (`cuLt`); all concrete strings appearing in counterexamples use characters
  on which every locale agrees with code-unit order.
* `Number(s)` is modelled on the fragment the app exercises: the empty string
  gives `0`, a nonempty all-digit string gives its value, anything else gives
  `NaN` (`none`).
* `Array.prototype.sort` is a stable sort in JS; it is modelled by
  `List.mergeSort` with the boolean relation `le a b ↔ comparator a b ≤ 0`.
-/

/-! ## NaN-propagating arithmetic -/

/-- JS addition on possibly-NaN numbers: `NaN + x = x + NaN = NaN`. -/
def nqadd (a b : Option ℚ) : Option ℚ :=
  match a, b with
  | some x, some y => some (x + y)
  | _, _ => none

/-- JS multiplication on possibly-NaN numbers. -/
def nqmul (a b : Option ℚ) : Option ℚ :=
  match a, b with
  | some x, some y => some (x * y)
  | _, _ => none

/-- JS addition on possibly-NaN integral values (minute counts). -/
def nadd (a b : Option ℤ) : Option ℤ :=
  match a, b with
  | some x, some y => some (x + y)
  | _, _ => none

instance : Std.Associative nqadd :=
  ⟨by intro a b c; cases a <;> cases b <;> cases c <;> simp [nqadd] <;> ring⟩

instance : Std.Commutative nqadd :=
  ⟨by intro a b; cases a <;> cases b <;> simp [nqadd] <;> ring⟩

instance : Std.Associative nadd :=
  ⟨by intro a b c; cases a <;> cases b <;> cases c <;> simp [nadd] <;> ring⟩

instance : Std.Commutative nadd :=
  ⟨by intro a b; cases a <;> cases b <;> simp [nadd] <;> ring⟩

/-- Sum of a list of possibly-NaN values, starting from the JS accumulator `0`. -/
def nqsum (l : List (Option ℚ)) : Option ℚ := l.foldr nqadd (some 0)

/-- Sum of a list of possibly-NaN integral values. -/
def nsum (l : List (Option ℤ)) : Option ℤ := l.foldr nadd (some 0)

/-! ## Strings: code-unit comparison and the JS `Number` fragment -/

/-- Code-unit lexicographic strict order on char lists (models `localeCompare`
and the default `sort` comparator on the strings the app handles). -/
def cuLt : List Char → List Char → Bool
  | [], [] => false
  | [], _ :: _ => true
  | _ :: _, [] => false
  | a :: as, b :: bs =>
    if a.toNat < b.toNat then true else if b.toNat < a.toNat then false else cuLt as bs

/-- Here `strLt a b` models `a.localeCompare(b) < 0`. -/
def strLt (a b : String) : Bool := cuLt a.data b.data

/-- Here `strLe a b` models `a.localeCompare(b) <= 0`: the comparator is not
positive, i.e. `b` does not come strictly before `a`. -/
def strLe (a b : String) : Bool := !(strLt b a)

/-- JS `String.prototype.split` with a single-character separator. -/
def splitCh (sep : Char) : List Char → List (List Char)
  | [] => [[]]
  | c :: cs =>
    if c = sep then [] :: splitCh sep cs
    else
      match splitCh sep cs with
      | r :: rs => (c :: r) :: rs
      | [] => [[c]]

/-- Numeric value of a decimal digit character, if it is one. -/
def charDigit (c : Char) : Option Nat :=
  if 48 ≤ c.toNat ∧ c.toNat ≤ 57 then some (c.toNat - 48) else none

/-- Value of an all-digit character list; `none` when any character is not a
digit.  The empty list evaluates to `0`, as JS `Number("")` does. -/
def digitsVal (cs : List Char) : Option Nat :=
  cs.foldl (fun acc c =>
    match acc, charDigit c with
    | some a, some d => some (10 * a + d)
    | _, _ => none) (some 0)

/-- Model of JS `Number(x)` as used by `split(':').map(Number)` followed by
array destructuring: `none` input is `undefined` (a missing component, which
behaves as `NaN` in the subsequent arithmetic); the empty string is `0`; a
nonempty digit string is its value; any other string is `NaN` (`none`).
(The full JS `Number` also accepts signs, whitespace, decimals and non-decimal
prefixes; the "HH:MM" fragment never produces those, and every concrete string
appearing in a theorem below is either all digits or contains a character that
JS `Number` also rejects.) -/
def jsNumber : Option (List Char) → Option ℤ
  | none => none
  | some cs => (digitsVal cs).map Int.ofNat

/-- Model `parseHM s` of `const [h, m] = s.split(':').map(Number)` from
`calculateDuration` (src/hooks/useFirestoreData.ts) and `getDurationInHours`
(src/components/Reports.tsx). -/
def parseHM (s : String) : Option ℤ × Option ℤ :=
  let parts := splitCh ':' s.data
  (jsNumber parts[0]?, jsNumber parts[1]?)

/-- Model of `calculateDuration` (src/hooks/useFirestoreData.ts, lines 73-79)
and of the minute computation inside `getDurationInHours`
(src/components/Reports.tsx, lines 18-24):

    const [h1, m1] = start.split(':').map(Number);
    const [h2, m2] = end.split(':').map(Number);
    let minutes = (h2 * 60 + m2) - (h1 * 60 + m1);
    if (minutes < 0) minutes += 24 * 60;
    return minutes;

When any component is `NaN`, `minutes` is `NaN`, the comparison `NaN < 0` is
false, and `NaN` is returned — modelled by the `none` branch. -/
def calculateDuration (start1 end1 : String) : Option ℤ :=
  match parseHM start1, parseHM end1 with
  | (some h1, some m1), (some h2, some m2) =>
    let minutes := (h2 * 60 + m2) - (h1 * 60 + m1)
    some (if minutes < 0 then minutes + 24 * 60 else minutes)
  | _, _ => none

/-- Model of `getDurationInHours` (src/components/Reports.tsx, lines 18-24):
same minute computation, then `minutes / 60`. -/
def getDurationInHours (start1 end1 : String) : Option ℚ :=
  (calculateDuration start1 end1).map (fun m => (m : ℚ) / 60)

/-- A well-formed "HH:MM" string: both components parse and denote a valid
wall-clock time. -/
def wfTime (s : String) : Bool :=
  match parseHM s with
  | (some h, some m) => decide (0 ≤ h) && decide (h < 24) && decide (0 ≤ m) && decide (m < 60)
  | _ => false

/-! ## Calendar arithmetic on day numbers -/

/-- Model of the helper `getStartOfWeek` (src/hooks/useFirestoreData.ts,
lines 62-69) on day numbers:

    const day = d.getDay();
    const diff = (day === 0 ? -6 : 1) - day;
    d.setDate(d.getDate() + diff);
    d.setHours(0, 0, 0, 0);

`d.getDay()` is `(d + 4) mod 7` on day numbers (0 = Sunday); the midnight
truncation is the identity on date-only values. -/
def getStartOfWeek (d : ℤ) : ℤ :=
  let day := (d + 4) % 7
  d + ((if day = 0 then -6 else 1) - day)

/-- Day-of-era part of the civil-from-days computation (Howard Hinnant's
algorithm, mirroring what JS `Date.prototype.getFullYear`/`getMonth` return
for a date-only value): year of era, month and day from the day-of-era. -/
def civilFromDoe (era doe : ℤ) : ℤ × ℤ × ℤ :=
  let yoe := (doe - doe / 1460 + doe / 36524 - doe / 146096) / 365
  let y := yoe + era * 400
  let doy := doe - (365 * yoe + yoe / 4 - yoe / 100)
  let mp := (5 * doy + 2) / 153
  let d := doy - (153 * mp + 2) / 5 + 1
  let m := mp + (if mp < 10 then 3 else -9)
  (y + (if m ≤ 2 then 1 else 0), m, d)

/-- Civil date (year, month 1-12, day 1-31) of a day number. -/
def civilFromDays (z : ℤ) : ℤ × ℤ × ℤ :=
  let z1 := z + 719468
  let era := z1 / 146097
  let doe := z1 - era * 146097
  civilFromDoe era doe

/-- Model of JS `date.getMonth()` (0-based month) on day numbers. -/
def monthOf (z : ℤ) : ℤ := (civilFromDays z).2.1 - 1

/-- Model of JS `date.getFullYear()` on day numbers. -/
def yearOf (z : ℤ) : ℤ := (civilFromDays z).1

/-- Day number of a civil date (inverse of `civilFromDays`), used to state
concrete examples with calendar dates. -/
def daysFromCivil (y m d : ℤ) : ℤ :=
  let y1 := y - (if m ≤ 2 then 1 else 0)
  let era := y1 / 400
  let yoe := y1 - era * 400
  let doy := (153 * (m + (if 2 < m then -3 else 9)) + 2) / 5 + d - 1
  let doe := yoe * 365 + yoe / 4 - yoe / 100 + doy
  era * 146097 + doe - 719468

/-! The month of any day number is between 0 and 11.  The proof enumerates
the 400 years of an era and uses the monotonicity of the adjusted day count
`gN`. -/

/-- Adjusted day count within an era (`Nat` mirror of the `yoe` numerator of
`civilFromDoe`). -/
def gN (n : Nat) : Nat := n - n / 1460 + n / 36524 - n / 146096

/-- Days before year-of-era `y` within an era (`Nat` mirror of the `doy`
subtrahend of `civilFromDoe`). -/
def dbN (y : Nat) : Nat := 365 * y + y / 4 - y / 100

/-- Per-year check used by `dbN_le`: the first day of year `y` (if any) is not
before `dbN y`, and day `dbN y + 366` (if in range) is in a later year. -/
def checkY (y : Nat) : Bool :=
  let db := dbN y
  (db == 0 || decide (gN (db - 1) < 365 * y)) &&
  (decide (146096 < db + 366) || decide (365 * (y + 1) ≤ gN (db + 366)))

/-! ## Data model (src/types.ts) -/

/-- Model of `TimeEntry` (src/types.ts).  `date` is the day number of the calendar
date; `billable`/`invoiced` are optional booleans (`none` = field absent). -/
structure TimeEntry where
  id : String
  description : String
  project : String
  date : ℤ
  startTime : String
  endTime : String
  billable : Option Bool
  invoiced : Option Bool
deriving DecidableEq

/-- Model of `Project` (src/types.ts).  `rate` is an optional number. -/
structure Project where
  id : String
  name : String
  client : Option String
  color : String
  active : Option Bool
  rate : Option ℚ
deriving DecidableEq

/-- Model of `Client` (src/types.ts). -/
structure Client where
  id : String
  name : String
  color : Option String
deriving DecidableEq

/-- Shared shape of `License`, `Server` and `Domain` (src/types.ts): the three
recurring cost-item categories, identical for aggregation purposes. -/
structure CostItem where
  id : String
  name : String
  price : ℚ
  project : String
  client : String
  date : ℤ
  invoiced : Bool
  notes : Option String
deriving DecidableEq

/-- Model of `DayGroup` (src/hooks/useFirestoreData.ts).  `duration` is in minutes and
can be `NaN` (`none`) when an entry has a malformed time. -/
structure DayGroup where
  date : ℤ
  duration : Option ℤ
  entries : List TimeEntry
deriving DecidableEq

/-- Model of `WeekGroup` (src/hooks/useFirestoreData.ts).  The source field `end` is a
Lean keyword and is called `stop` here. -/
structure WeekGroup where
  start : ℤ
  stop : ℤ
  duration : Option ℤ
  days : List DayGroup
deriving DecidableEq

/-! ## WeekDayGrouper (src/hooks/useFirestoreData.ts, groupEntriesByWeek) -/

/-- The sort relation of step 1 of `groupEntriesByWeek`:

    const sorted = [...entries].sort((a, b) => {
        const dateDiff = b.date.getTime() - a.date.getTime();
        if (dateDiff !== 0) return dateDiff;
        return b.startTime.localeCompare(a.startTime);
    });

`entryLe a b` holds when the comparator applied to `(a, b)` is `≤ 0`, i.e.
when `a` may precede `b`: date descending, then start time descending. -/
def entryLe (a b : TimeEntry) : Bool :=
  if a.date = b.date then strLe b.startTime a.startTime else decide (b.date < a.date)

/-- Replace the first element satisfying `p` by its image under `f` (models
mutating, in place, the object returned by `Array.prototype.find`). -/
def updateFirst {α : Type} (p : α → Bool) (f : α → α) : List α → List α
  | [] => []
  | x :: xs => if p x then f x :: xs else x :: updateFirst p f xs

/-- The body of the `sorted.forEach(entry => ...)` loop of
`groupEntriesByWeek` (src/hooks/useFirestoreData.ts, lines 97-119): find or
create the week group whose `start` is the entry's week start (`isSameDay` on
date-only values is equality), find or create the day group for the entry's
date, append the entry, and add its duration to the day and week totals. -/
def newWeek (ws : ℤ) : WeekGroup :=
  { start := ws, stop := ws + 6, duration := some 0, days := [] }

def newDay (dt : ℤ) : DayGroup :=
  { date := dt, duration := some 0, entries := [] }

def groupStep (weeks : List WeekGroup) (e : TimeEntry) : List WeekGroup :=
  let ws := getStartOfWeek e.date
  let dur := calculateDuration e.startTime e.endTime
  let weeks1 :=
    if weeks.any (fun w => w.start = ws) then weeks
    else weeks ++ [newWeek ws]
  updateFirst (fun w => w.start = ws)
    (fun w =>
      let days1 :=
        if w.days.any (fun d => d.date = e.date) then w.days
        else w.days ++ [newDay e.date]
      let days2 := updateFirst (fun d => d.date = e.date)
        (fun d => { d with duration := nadd d.duration dur, entries := d.entries ++ [e] })
        days1
      { w with duration := nadd w.duration dur, days := days2 })
    weeks1

/-- Model of `groupEntriesByWeek` (src/hooks/useFirestoreData.ts,
lines 86-122). -/
def groupEntriesByWeek (entries : List TimeEntry) : List WeekGroup :=
  (entries.mergeSort entryLe).foldl groupStep []

/-- Duration (possibly `NaN`) of one entry, as computed by the grouping. -/
def entryDur (e : TimeEntry) : Option ℤ := calculateDuration e.startTime e.endTime

/-- All entries stored in a list of week groups, in structure order. -/
def weeksEntries (weeks : List WeekGroup) : List TimeEntry :=
  weeks.flatMap (fun w => w.days.flatMap (fun d => d.entries))

/-! ### Invariants of the grouping loop -/

/-- A day group's total is the sum of its entries' computed durations. -/
def dayOK (d : DayGroup) : Prop := d.duration = nsum (d.entries.map entryDur)

/-- A week group's total is the sum of its day groups' totals, and every day
group in it is internally consistent. -/
def weekOK (w : WeekGroup) : Prop :=
  w.duration = nsum (w.days.map DayGroup.duration) ∧ ∀ d ∈ w.days, dayOK d

/-- Every day group sits in the week group of its date's week start, and holds
only entries of its own calendar day. -/
def placeOK (w : WeekGroup) : Prop :=
  ∀ d ∈ w.days, getStartOfWeek d.date = w.start ∧ ∀ e ∈ d.entries, e.date = d.date

/-- Sample entry for the witness of **C5**. -/
def sampleC5 : TimeEntry :=
  { id := "w5", description := "", project := "p", date := 19844,
    startTime := "09:00", endTime := "10:30", billable := none, invoiced := none }

/-- Sample entries for the concrete part of **C6** (2024-05-01 and 2024-05-03
lie in the same Monday-started week). -/
def entryMay1 : TimeEntry :=
  { id := "e1", description := "", project := "p", date := daysFromCivil 2024 5 1,
    startTime := "09:00", endTime := "10:00", billable := none, invoiced := none }

def entryMay3 : TimeEntry :=
  { id := "e2", description := "", project := "p", date := daysFromCivil 2024 5 3,
    startTime := "09:00", endTime := "10:00", billable := none, invoiced := none }

/-! ## FilterResolver (src/components/Reports.tsx, availableProjects) -/

/-- The client selector of the Reports screen: the `<select>` holds `'all'`,
`'no-client'`, or a client id. -/
inductive ClientSel
  | all
  | noClient
  | clientId (id : String)
deriving DecidableEq

/-- The invoice-status selector: `'all' | 'invoiced' | 'not-invoiced'`. -/
inductive InvoiceFilter
  | all
  | invoiced
  | notInvoiced
deriving DecidableEq

/-- Truthiness of `p.client` in JS: `undefined` and the empty string are
falsy (used by `projects.filter(p => !p.client)`). -/
def hasClient (p : Project) : Bool :=
  match p.client with
  | some c => !(c = "")
  | none => false

/-- Model of `a.client || 'zz'` from the availableProjects sort comparator. -/
def clientKey (p : Project) : String :=
  match p.client with
  | some c => if c = "" then "zz" else c
  | none => "zz"

/-- The availableProjects sort comparator (src/components/Reports.tsx,
lines 72-77) as a boolean "may precede" relation:

    const cA = a.client || 'zz';
    const cB = b.client || 'zz';
    if (cA !== cB) return cA.localeCompare(cB);
    return a.name.localeCompare(b.name);
-/
def projLe (a b : Project) : Bool :=
  if clientKey a = clientKey b then strLe a.name b.name
  else strLt (clientKey a) (clientKey b)

def sortProjects (l : List Project) : List Project := l.mergeSort projLe

/-- Model of `availableProjects` (src/components/Reports.tsx, lines 61-78):
filter the project catalog by the client selector, then sort with `projLe`.
(The in-place aspect of `filtered.sort(...)` is modelled separately by
`availableProjectsRun`.) -/
def availableProjects (projects : List Project) (clients : List Client)
    (sel : ClientSel) : List Project :=
  match sel with
  | .all => sortProjects projects
  | .noClient => sortProjects (projects.filter (fun p => !hasClient p))
  | .clientId cid =>
    match clients.find? (fun c => c.id = cid) with
    | some c => sortProjects (projects.filter (fun p => p.client = some c.name))
    | none => sortProjects []

/-- The filter predicate equivalent of the three `availableProjects`
branches. -/
def selPred (clients : List Client) (sel : ClientSel) (p : Project) : Bool :=
  match sel with
  | .all => true
  | .noClient => !hasClient p
  | .clientId cid =>
    match clients.find? (fun c => c.id = cid) with
    | some c => p.client = some c.name
    | none => false

/-! ## MonthlyAggregator (src/components/Reports.tsx, processedData) -/

/-- Invoice-status test of the entry filters (`e.invoiced === true` /
`e.invoiced !== true` on an optional boolean). -/
def invoiceMatch (inv : InvoiceFilter) (i : Option Bool) : Bool :=
  match inv with
  | .all => true
  | .invoiced => i = some true
  | .notInvoiced => !(i = some true)

/-- Invoice-status test for cost items, whose `invoiced` field is a plain
boolean. -/
def invoiceMatchB (inv : InvoiceFilter) (i : Bool) : Bool :=
  invoiceMatch inv (some i)

/-- Model of `project?.rate || 0`: a missing project, a missing rate and a zero rate
all give 0. -/
def jsOr0 (x : Option ℚ) : ℚ :=
  match x with
  | some r => if r = 0 then 0 else r
  | none => 0

/-- The rate lookup of `hoursAmount`:
`projects.find(p => p.id === entry.project)?.rate || 0`. -/
def projRate (projects : List Project) (pid : String) : ℚ :=
  jsOr0 ((projects.find? (fun p => p.id = pid)).bind Project.rate)

/-- The reconciled active project-id set (src/components/Reports.tsx,
lines 107-112): `[...selectedProjectIds].filter(id => validIds.has(id))` where
`validIds` are the ids of `availableProjects`. -/
def activeProjectIdsOf (selectedIds : List String) (avail : List Project) : List String :=
  selectedIds.filter (fun pid => (avail.map Project.id).contains pid)

/-- The year/project/invoice filter over time entries
(src/components/Reports.tsx, lines 114-127, `yearEntries`). -/
def yearEntriesOf (entries : List TimeEntry) (year : ℤ) (activeIds : List String)
    (inv : InvoiceFilter) : List TimeEntry :=
  entries.filter (fun e =>
    decide (yearOf e.date = year) && activeIds.contains e.project
      && invoiceMatch inv e.invoiced)

/-- One month's aggregate record (src/components/Reports.tsx, lines 154-238;
`projectBreakdown` and the legend, which no claim references, are omitted). -/
structure MonthlyAgg where
  month : ℕ
  totalHours : Option ℚ
  hoursAmount : Option ℚ
  licenseAmount : ℚ
  serverAmount : ℚ
  domainAmount : ℚ
  totalAmount : Option ℚ
  entryCount : ℕ
deriving DecidableEq

/-- The per-month filter-and-sum over one cost-item category
(src/components/Reports.tsx, lines 168-202). -/
def costAmount (items : List CostItem) (m : ℕ) (year : ℤ) (activeIds : List String)
    (inv : InvoiceFilter) : ℚ :=
  (items.filter (fun it =>
    (decide (monthOf it.date = (m : ℤ)) && decide (yearOf it.date = year))
      && activeIds.contains it.project && invoiceMatchB inv it.invoiced)).foldl
        (fun acc it => acc + it.price) 0

/-- One month of `monthlyData` (src/components/Reports.tsx, lines 154-238). -/
def monthAgg (yearEntries : List TimeEntry) (projects : List Project)
    (licenses servers domains : List CostItem) (year : ℤ) (activeIds : List String)
    (inv : InvoiceFilter) (m : ℕ) : MonthlyAgg :=
  let monthEntries := yearEntries.filter (fun e => monthOf e.date = (m : ℤ))
  let totalHours := monthEntries.foldl
    (fun acc e => nqadd acc (getDurationInHours e.startTime e.endTime)) (some 0)
  let hoursAmount := monthEntries.foldl
    (fun acc e => nqadd acc
      (if e.billable = some true
        then nqmul (getDurationInHours e.startTime e.endTime)
          (some (projRate projects e.project))
        else some 0))
    (some 0)
  let licenseAmount := costAmount licenses m year activeIds inv
  let serverAmount := costAmount servers m year activeIds inv
  let domainAmount := costAmount domains m year activeIds inv
  { month := m
    totalHours := totalHours
    hoursAmount := hoursAmount
    licenseAmount := licenseAmount
    serverAmount := serverAmount
    domainAmount := domainAmount
    totalAmount := nqadd (nqadd (nqadd hoursAmount (some licenseAmount))
      (some serverAmount)) (some domainAmount)
    entryCount := monthEntries.length }

/-- Model of `monthlyData`: one aggregate per month of the selected year
(`eachMonthOfInterval` produces the 12 months, whose `getMonth` values are
0 to 11). -/
def monthlyData (yearEntries : List TimeEntry) (projects : List Project)
    (licenses servers domains : List CostItem) (year : ℤ) (activeIds : List String)
    (inv : InvoiceFilter) : List MonthlyAgg :=
  (List.range 12).map (monthAgg yearEntries projects licenses servers domains year activeIds inv)

/-- The output of the `processedData` memo that the claims reference
(src/components/Reports.tsx, lines 101-243). -/
structure ProcessedData where
  monthlyData : List MonthlyAgg
  grandTotalHours : Option ℚ
  grandTotalAmount : Option ℚ
  relevantProjectIds : List String
deriving DecidableEq

/-- Model of the `processedData` computation: reconcile the project-id
selection against `availableProjects`, filter the entries, aggregate by month
and total the year. -/
def processedData (entries : List TimeEntry) (projects : List Project)
    (clients : List Client) (licenses servers domains : List CostItem) (year : ℤ)
    (sel : ClientSel) (selectedIds : List String) (inv : InvoiceFilter) : ProcessedData :=
  let avail := availableProjects projects clients sel
  let activeIds := activeProjectIdsOf selectedIds avail
  let yearE := yearEntriesOf entries year activeIds inv
  let md := monthlyData yearE projects licenses servers domains year activeIds inv
  { monthlyData := md
    grandTotalHours := md.foldl (fun acc mr => nqadd acc mr.totalHours) (some 0)
    grandTotalAmount := md.foldl (fun acc mr => nqadd acc mr.totalAmount) (some 0)
    relevantProjectIds := activeIds }

/-! ## Claims C7 and C8 -/

/-- Projects for the **C7** counterexample: a client name lexicographically
after "zz" makes a no-client project sort before a with-client project. -/
def projZZZ : Project :=
  { id := "1", name := "P1", client := some "zzz", color := "", active := none, rate := none }

def projNoClient : Project :=
  { id := "2", name := "P2", client := none, color := "", active := none, rate := none }

/-! Mutation model for **C8**.  JS `Array.prototype.sort` sorts in place and
`Array.prototype.filter` allocates: each `...Run` function returns its result
together with the post-call state of the input arrays it could have mutated.
`groupEntriesByWeek` sorts a spread copy (`[...entries].sort`), so its input
survives; `availableProjects` sorts `filtered`, which in the 'all' branch *is*
the `projects` array, so that branch reorders the input in place; the
aggregation uses only `filter`/`reduce`/`map`/`find`, which do not mutate. -/

def groupEntriesByWeekRun (entries : List TimeEntry) :
    List WeekGroup × List TimeEntry :=
  (groupEntriesByWeek entries, entries)

def availableProjectsRun (projects : List Project) (clients : List Client)
    (sel : ClientSel) : List Project × List Project :=
  match sel with
  | .all => (sortProjects projects, sortProjects projects)
  | .noClient => (sortProjects (projects.filter (fun p => !hasClient p)), projects)
  | .clientId cid =>
    (match clients.find? (fun c => c.id = cid) with
      | some c => sortProjects (projects.filter (fun p => p.client = some c.name))
      | none => sortProjects [],
     projects)

def processedDataRun (entries : List TimeEntry) (projects : List Project)
    (clients : List Client) (licenses servers domains : List CostItem) (year : ℤ)
    (sel : ClientSel) (selectedIds : List String) (inv : InvoiceFilter) :
    ProcessedData × (List TimeEntry × List CostItem × List CostItem × List CostItem × List Client) :=
  (processedData entries projects clients licenses servers domains year sel selectedIds inv,
   (entries, licenses, servers, domains, clients))

/-- Projects for the **C8** counterexample (stored out of sort order). -/
def projB : Project :=
  { id := "b", name := "B", client := none, color := "", active := none, rate := none }

def projA : Project :=
  { id := "a", name := "A", client := none, color := "", active := none, rate := none }

/-- Claim C1, counterexample input: the start time "ab:30" has an hour
component that `Number` cannot parse. -/
def entryBadTime : TimeEntry :=
  { id := "x", description := "", project := "p", date := 19792,
    startTime := "ab:30", endTime := "10:00", billable := none, invoiced := none }

def projP : Project :=
  { id := "p", name := "P", client := none, color := "", active := none, rate := none }

/-- Claim C2, failing input: a 2-hour entry whose `billable` field is absent,
on a project with rate 50 (date 19792 is 2024-03-10). -/
def projWebsite : Project :=
  { id := "w", name := "Website", client := none, color := "", active := none,
    rate := some 50 }

def entryNoBillable : TimeEntry :=
  { id := "nb", description := "", project := "w", date := 19792,
    startTime := "09:00", endTime := "11:00", billable := none, invoiced := none }

/-- Modelled from the claim (and spec section 3, "billable flag (default
true)"): `hoursAmount` as the sum, over the month's entries whose billable
flag — defaulting to true when absent — is set, of duration-in-hours times
the project's rate (0 when the rate or the project is absent). -/
def hoursAmountSpec (projects : List Project) (monthEntries : List TimeEntry) : Option ℚ :=
  nqsum ((monthEntries.filter (fun e => e.billable.getD true)).map
    (fun e => nqmul (getDurationInHours e.startTime e.endTime)
      (some (((projects.find? (fun p => p.id = e.project)).bind Project.rate).getD 0))))

/-! ## LedgerExporter (src/components/Reports.tsx, handleExport) -/

/-- The export's entry selection (src/components/Reports.tsx, lines 252-260):
the same year/project/invoice predicate as `yearEntries`, then
`.sort((a, b) => a.date.getTime() - b.date.getTime())` (ascending). -/
def exportEntriesOf (entries : List TimeEntry) (year : ℤ) (activeIds : List String)
    (inv : InvoiceFilter) : List TimeEntry :=
  (yearEntriesOf entries year activeIds inv).mergeSort (fun a b => decide (a.date ≤ b.date))

/-- The export's client grouping key:
`project.client || 'No Client / Internal'`. -/
def clientNameOf (project : Project) : String :=
  match project.client with
  | some c => if c = "" then "No Client / Internal" else c
  | none => "No Client / Internal"

/-- Find-or-create the project bucket inside one client bucket and append the
entry (`groupedData[clientName][projectName].push(entry)`). -/
def pushProj (ps : List (String × List TimeEntry)) (pn : String) (e : TimeEntry) :
    List (String × List TimeEntry) :=
  let ps1 := if ps.any (fun kv => kv.1 = pn) then ps else ps ++ [(pn, [])]
  updateFirst (fun kv => kv.1 = pn) (fun kv => (kv.1, kv.2 ++ [e])) ps1

/-- Find-or-create the client bucket and delegate to `pushProj`.  String-keyed
JS objects preserve insertion order, modelled by an association list (client
or project names that look like array indices would be enumerated first by
`Object.entries`, but the subsequent sort makes that order immaterial here). -/
def pushEntry (g : List (String × List (String × List TimeEntry))) (cn pn : String)
    (e : TimeEntry) : List (String × List (String × List TimeEntry)) :=
  let g1 := if g.any (fun kv => kv.1 = cn) then g else g ++ [(cn, [])]
  updateFirst (fun kv => kv.1 = cn) (fun kv => (kv.1, pushProj kv.2 pn e)) g1

/-- Step 2 of `handleExport` (src/components/Reports.tsx, lines 263-279):
group the export entries by client name then project name, silently dropping
an entry whose project id is not in the catalog (`if (!project) return`). -/
def groupedDataOf (ex : List TimeEntry) (projects : List Project) :
    List (String × List (String × List TimeEntry)) :=
  ex.foldl (fun g e =>
    match projects.find? (fun p => p.id = e.project) with
    | none => g
    | some project => pushEntry g (clientNameOf project) project.name e) []

/-- The string JS compares when `Object.entries(groupedData).sort()` sorts a
`[clientName, object]` pair with the default comparator:
`String([k, v]) = k + "," + String(v)` and `String(v)` of a plain object is
`"[object Object]"`. -/
def pairKeyClient (kv : String × List (String × List TimeEntry)) : String :=
  kv.1 ++ ",[object Object]"

/-- The string JS compares for an inner `[projectName, entryArray]` pair:
`String(array)` joins the element strings (each `"[object Object]"`) with
commas. -/
def pairKeyProj (kv : String × List TimeEntry) : String :=
  kv.1 ++ "," ++ String.intercalate "," (kv.2.map (fun _ => "[object Object]"))

/-- Step 3's emission order: client pairs sorted by the default comparator,
and each client's project pairs likewise. -/
def sortedGrouped (g : List (String × List (String × List TimeEntry))) :
    List (String × List (String × List TimeEntry)) :=
  (g.mergeSort (fun a b => strLe (pairKeyClient a) (pairKeyClient b))).map
    (fun kv => (kv.1, kv.2.mergeSort (fun a b => strLe (pairKeyProj a) (pairKeyProj b))))

/-- The running `projectTotalHours` accumulated while a project block is
printed. -/
def projectTotal (es : List TimeEntry) : Option ℚ :=
  es.foldl (fun acc e => nqadd acc (getDurationInHours e.startTime e.endTime)) (some 0)

/-- All entries listed in the grouped structure, in emission order. -/
def flatG (g : List (String × List (String × List TimeEntry))) : List TimeEntry :=
  g.flatMap (fun c => c.2.flatMap (fun pb => pb.2))

/-- Entries already grouped are date-ordered, and bounded by any date not less
than everything processed so far. -/
def blockOrdered (g : List (String × List (String × List TimeEntry))) : Prop :=
  ∀ c ∈ g, ∀ pb ∈ c.2, (pb.2.map TimeEntry.date).Pairwise (fun a b => a ≤ b)

def blockLe (g : List (String × List (String × List TimeEntry))) (x : ℤ) : Prop :=
  ∀ c ∈ g, ∀ pb ∈ c.2, ∀ e1 ∈ pb.2, e1.date ≤ x

/-- Projects and entries for the **C9** counterexample: client names "B" and
"B!".  The default sort compares `"B,[object Object]"` with
`"B!,[object Object]"`; since the code unit of `!` is below that of the
comma, the client "B!" is emitted before "B", although ascending lexical
order of the group keys puts the prefix "B" first. -/
def projCliB : Project :=
  { id := "pb", name := "P", client := some "B", color := "", active := none,
    rate := none }

def projCliBx : Project :=
  { id := "px", name := "Q", client := some "B!", color := "", active := none,
    rate := none }

def entryCliB : TimeEntry :=
  { id := "e1", description := "", project := "pb", date := 19792,
    startTime := "09:00", endTime := "10:00", billable := none, invoiced := none }

def entryCliBx : TimeEntry :=
  { id := "e2", description := "", project := "px", date := 19792,
    startTime := "09:00", endTime := "10:00", billable := none, invoiced := none }

/-! ## Theorems -/

@[simp] theorem nqsum_nil : nqsum [] = some 0 := rfl

@[simp] theorem nqsum_cons (a : Option ℚ) (l : List (Option ℚ)) :
    nqsum (a :: l) = nqadd a (nqsum l) := rfl

@[simp] theorem nsum_nil : nsum [] = some 0 := rfl

@[simp] theorem nsum_cons (a : Option ℤ) (l : List (Option ℤ)) :
    nsum (a :: l) = nadd a (nsum l) := rfl

theorem nqsum_append (l1 l2 : List (Option ℚ)) :
    nqsum (l1 ++ l2) = nqadd (nqsum l1) (nqsum l2) := by
  induction l1 with
  | nil =>
    show nqsum l2 = nqadd (some 0) (nqsum l2)
    cases h : nqsum l2 <;> simp [nqadd]
  | cons a l ih =>
    simp only [List.cons_append, nqsum_cons, ih]
    ac_rfl

theorem nsum_append (l1 l2 : List (Option ℤ)) :
    nsum (l1 ++ l2) = nadd (nsum l1) (nsum l2) := by
  induction l1 with
  | nil =>
    show nsum l2 = nadd (some 0) (nsum l2)
    cases h : nsum l2 <;> simp [nadd]
  | cons a l ih =>
    simp only [List.cons_append, nsum_cons, ih]
    ac_rfl

theorem nsum_perm {l1 l2 : List (Option ℤ)} (h : l1.Perm l2) : nsum l1 = nsum l2 := by
  induction h with
  | nil => rfl
  | cons a _ ih => simp [nsum_cons, ih]
  | swap a b l =>
    simp only [nsum_cons]
    generalize nsum l = s
    cases a <;> cases b <;> cases s <;> simp [nadd] <;> ring
  | trans _ _ ih1 ih2 => exact ih1.trans ih2

theorem nqsum_perm {l1 l2 : List (Option ℚ)} (h : l1.Perm l2) : nqsum l1 = nqsum l2 := by
  induction h with
  | nil => rfl
  | cons a _ ih => simp [nqsum_cons, ih]
  | swap a b l =>
    simp only [nqsum_cons]
    generalize nqsum l = s
    cases a <;> cases b <;> cases s <;> simp [nqadd] <;> ring
  | trans _ _ ih1 ih2 => exact ih1.trans ih2

theorem charEq_of_toNat {a b : Char} (h : a.toNat = b.toNat) : a = b :=
  Char.ext (UInt32.ext h)

theorem cuLt_irrefl : ∀ l : List Char, cuLt l l = false := by
  intro l
  induction l with
  | nil => rfl
  | cons a as ih => simp [cuLt, ih]

theorem cuLt_trans : ∀ {a b c : List Char},
    cuLt a b = true → cuLt b c = true → cuLt a c = true := by
  intro a
  induction a with
  | nil =>
    intro b c hab hbc
    match b, c with
    | [], _ => simp [cuLt] at hab
    | _ :: _, [] => simp [cuLt] at hbc
    | _ :: _, _ :: _ => simp [cuLt]
  | cons x xs ih =>
    intro b c hab hbc
    match b, c with
    | [], _ => simp [cuLt] at hab
    | _ :: _, [] => simp [cuLt] at hbc
    | y :: ys, z :: zs =>
      simp only [cuLt] at hab hbc ⊢
      split_ifs at hab hbc ⊢ <;>
        first
          | rfl
          | omega
          | (exact ih hab hbc)
          | simp at hab
          | simp at hbc

theorem cuLt_asymm_eq : ∀ {a b : List Char},
    cuLt a b = false → cuLt b a = false → a = b := by
  intro a
  induction a with
  | nil =>
    intro b hab _
    match b with
    | [] => rfl
    | _ :: _ => simp [cuLt] at hab
  | cons x xs ih =>
    intro b hab hba
    match b with
    | [] => simp [cuLt] at hba
    | y :: ys =>
      simp only [cuLt] at hab hba
      split_ifs at hab hba <;>
        first
          | simp at hab
          | simp at hba
          | (rename_i h1 h2 h3 h4
             exact absurd (charEq_of_toNat (by omega) : x = y) (fun hh => by
               cases hh; omega))
          | (have hxy : x = y := charEq_of_toNat (by omega)
             cases hxy
             rw [ih hab hba])

theorem cuLt_contra : ∀ {a b : List Char}, cuLt a b = true → cuLt b a = true → False := by
  intro a b hab hba
  have := cuLt_trans hab hba
  rw [cuLt_irrefl] at this
  exact Bool.false_ne_true this

theorem strLe_trans (a b c : String) (hab : strLe a b = true) (hbc : strLe b c = true) :
    strLe a c = true := by
  unfold strLe strLt at hab hbc ⊢
  simp only [Bool.not_eq_true'] at hab hbc ⊢
  by_contra hca
  simp only [Bool.not_eq_false] at hca
  by_cases hbc2 : cuLt b.data c.data = true
  · have := cuLt_trans hbc2 hca
    simp [this] at hab
  · have heq : b.data = c.data :=
      cuLt_asymm_eq (Bool.not_eq_true _ ▸ hbc2) hbc
    rw [← heq] at hca
    simp [hca] at hab

theorem strLe_total (a b : String) : (strLe a b || strLe b a) = true := by
  unfold strLe strLt
  by_cases h : cuLt b.data a.data = true
  · by_cases h2 : cuLt a.data b.data = true
    · exact absurd (cuLt_contra h h2) (fun f => f)
    · simp only [Bool.not_eq_true] at h2
      simp [h2]
  · simp only [Bool.not_eq_true] at h
    simp [h]

theorem getStartOfWeek_closed (d : ℤ) : getStartOfWeek d = d - (d + 3) % 7 := by
  simp only [getStartOfWeek]
  split_ifs <;> omega

theorem getStartOfWeek_le (d : ℤ) : getStartOfWeek d ≤ d := by
  rw [getStartOfWeek_closed]; omega

theorem lt_getStartOfWeek_add (d : ℤ) : d < getStartOfWeek d + 7 := by
  rw [getStartOfWeek_closed]; omega

theorem getStartOfWeek_isMonday (d : ℤ) : (getStartOfWeek d + 4) % 7 = 1 := by
  rw [getStartOfWeek_closed]; omega

theorem getStartOfWeek_mono {d e : ℤ} (h : d ≤ e) : getStartOfWeek d ≤ getStartOfWeek e := by
  rw [getStartOfWeek_closed, getStartOfWeek_closed]; omega

theorem gN_mono (n m : Nat) (h : n ≤ m) (hm : m ≤ 146096) : gN n ≤ gN m := by
  unfold gN
  omega

set_option maxRecDepth 2000 in
theorem checkY_all : ∀ y : Nat, y < 400 → checkY y = true := by decide

theorem gN_top : gN 146096 = 145999 := by decide

theorem dbN_le (n : Nat) (hn : n ≤ 146096) :
    dbN (gN n / 365) ≤ n ∧ n ≤ dbN (gN n / 365) + 365 := by
  set y := gN n / 365 with hy
  have hytop : y ≤ 399 := by
    have h1 : gN n ≤ 145999 := gN_top ▸ gN_mono n 146096 hn (le_refl _)
    omega
  have hcy := checkY_all y (by omega)
  unfold checkY at hcy
  simp only [Bool.and_eq_true, Bool.or_eq_true, beq_iff_eq, decide_eq_true_eq] at hcy
  obtain ⟨hc1, hc2⟩ := hcy
  constructor
  · rcases hc1 with h0 | hlt
    · omega
    · by_contra hcon
      push_neg at hcon
      have hle : n ≤ dbN y - 1 := by omega
      have := gN_mono n (dbN y - 1) hle (by unfold dbN at hcon ⊢; omega)
      have h365 : 365 * y ≤ gN n := by omega
      omega
  · rcases hc2 with h0 | hge
    · omega
    · by_contra hcon
      push_neg at hcon
      have hle : dbN y + 366 ≤ n := by omega
      have := gN_mono (dbN y + 366) n hle hn
      have : gN n < 365 * (y + 1) := by omega
      omega

theorem monthOf_bounds (z : ℤ) : 0 ≤ monthOf z ∧ monthOf z < 12 := by
  unfold monthOf civilFromDays civilFromDoe
  simp only
  set z1 := z + 719468 with hz1
  set doe := z1 - z1 / 146097 * 146097 with hdoe
  have hdoe0 : 0 ≤ doe := by omega
  have hdoe1 : doe ≤ 146096 := by omega
  set n := doe.toNat with hn
  have hnz : (n : ℤ) = doe := by omega
  have hn146 : n ≤ 146096 := by omega
  have hdb := dbN_le n hn146
  have hyoe : (doe - doe / 1460 + doe / 36524 - doe / 146096) / 365
      = ((gN n / 365 : Nat) : ℤ) := by
    unfold gN
    omega
  rw [hyoe]
  have hdoy : doe - (365 * ((gN n / 365 : Nat) : ℤ)
      + ((gN n / 365 : Nat) : ℤ) / 4 - ((gN n / 365 : Nat) : ℤ) / 100)
      = (n : ℤ) - (dbN (gN n / 365) : ℤ) := by
    unfold dbN
    omega
  rw [hdoy]
  set doy := (n : ℤ) - (dbN (gN n / 365) : ℤ) with hdoyv
  have hdoy0 : 0 ≤ doy := by omega
  have hdoy365 : doy ≤ 365 := by omega
  have hmp0 : 0 ≤ (5 * doy + 2) / 153 := by omega
  have hmp11 : (5 * doy + 2) / 153 ≤ 11 := by omega
  set mp := (5 * doy + 2) / 153 with hmpv
  split <;> omega

/-! ### Helper lemmas about `updateFirst` -/

theorem mem_updateFirst {α : Type} {p : α → Bool} {f : α → α} {x : α} :
    ∀ {l : List α}, x ∈ updateFirst p f l →
      x ∈ l ∨ ∃ y, y ∈ l ∧ p y = true ∧ x = f y := by
  intro l
  induction l with
  | nil => intro h; simp [updateFirst] at h
  | cons a as ih =>
    intro h
    simp only [updateFirst] at h
    by_cases hp : p a = true
    · rw [if_pos hp] at h
      rcases List.mem_cons.mp h with h1 | h1
      · exact Or.inr ⟨a, List.mem_cons_self a as, hp, h1⟩
      · exact Or.inl (List.mem_cons_of_mem a h1)
    · rw [if_neg hp] at h
      rcases List.mem_cons.mp h with h1 | h1
      · exact Or.inl (h1 ▸ List.mem_cons_self a as)
      · rcases ih h1 with h2 | ⟨y, hy, hpy, hxy⟩
        · exact Or.inl (List.mem_cons_of_mem a h2)
        · exact Or.inr ⟨y, List.mem_cons_of_mem a hy, hpy, hxy⟩

theorem updateFirst_map_eq {α β : Type} (p : α → Bool) (f : α → α) (g : α → β)
    (h : ∀ y, p y = true → g (f y) = g y) :
    ∀ l : List α, (updateFirst p f l).map g = l.map g := by
  intro l
  induction l with
  | nil => rfl
  | cons a as ih =>
    simp only [updateFirst]
    by_cases hp : p a = true
    · rw [if_pos hp]
      simp [h a hp]
    · rw [if_neg hp]
      simp [ih]

theorem nadd_zero_right (x : Option ℤ) : nadd x (some 0) = x := by
  cases x <;> simp [nadd]

theorem nqadd_zero_right (x : Option ℚ) : nqadd x (some 0) = x := by
  cases x <;> simp [nqadd]

theorem nqadd_zero_left (x : Option ℚ) : nqadd (some 0) x = x := by
  cases x <;> simp [nqadd]

theorem updateFirst_nsum {α : Type} (p : α → Bool) (f : α → α) (k : α → Option ℤ)
    (dur : Option ℤ) (h : ∀ y, p y = true → k (f y) = nadd (k y) dur) :
    ∀ l : List α, l.any p = true →
      nsum ((updateFirst p f l).map k) = nadd (nsum (l.map k)) dur := by
  intro l
  induction l with
  | nil => intro hex; simp at hex
  | cons a as ih =>
    intro hex
    simp only [updateFirst]
    by_cases hp : p a = true
    · rw [if_pos hp]
      simp only [List.map_cons, nsum_cons, h a hp]
      ac_rfl
    · rw [if_neg hp]
      have hex2 : as.any p = true := by
        simp only [List.any_cons, Bool.or_eq_true] at hex
        rcases hex with h1 | h1
        · exact absurd h1 hp
        · exact h1
      simp only [List.map_cons, nsum_cons, ih hex2]
      ac_rfl

theorem updateFirst_flat_perm {α β : Type} (p : α → Bool) (f : α → α)
    (g : α → List β) (x : β)
    (h : ∀ y, p y = true → (g (f y)).Perm (g y ++ [x])) :
    ∀ l : List α, l.any p = true →
      ((updateFirst p f l).flatMap g).Perm (l.flatMap g ++ [x]) := by
  intro l
  induction l with
  | nil => intro hex; simp at hex
  | cons a as ih =>
    intro hex
    simp only [updateFirst]
    by_cases hp : p a = true
    · rw [if_pos hp]
      simp only [List.flatMap_cons, List.append_assoc]
      refine ((h a hp).append_right _).trans ?_
      rw [List.append_assoc]
      exact List.Perm.append_left _ List.perm_append_comm
    · rw [if_neg hp]
      have hex2 : as.any p = true := by
        simp only [List.any_cons, Bool.or_eq_true] at hex
        rcases hex with h1 | h1
        · exact absurd h1 hp
        · exact h1
      simp only [List.flatMap_cons, List.append_assoc]
      exact List.Perm.append_left _ (ih hex2)

theorem groupStep_weekOK (weeks : List WeekGroup) (e : TimeEntry)
    (h : ∀ w ∈ weeks, weekOK w) : ∀ w ∈ groupStep weeks e, weekOK w := by
  intro w hw
  simp only [groupStep] at hw
  have h1 : ∀ w1 ∈ (if weeks.any (fun w => w.start = getStartOfWeek e.date) then weeks
      else weeks ++ [newWeek (getStartOfWeek e.date)]), weekOK w1 := by
    intro w1 hw1
    split at hw1
    · exact h w1 hw1
    · rcases List.mem_append.mp hw1 with h2 | h2
      · exact h w1 h2
      · simp only [List.mem_singleton] at h2
        subst h2
        exact ⟨rfl, by intro d hd; simp [newWeek] at hd⟩
  rcases mem_updateFirst hw with h2 | ⟨y, hy, hpy, rfl⟩
  · exact h1 w h2
  · have hyOK := h1 y hy
    set dur := calculateDuration e.startTime e.endTime with hdur
    set days1 := (if y.days.any (fun d => d.date = e.date) then y.days
      else y.days ++ [newDay e.date]) with hdays1
    have hany : days1.any (fun d => d.date = e.date) = true := by
      rw [hdays1]
      split
      · assumption
      · simp [newDay]
    have hd1OK : ∀ d ∈ days1, dayOK d := by
      intro d hd
      rw [hdays1] at hd
      split at hd
      · exact hyOK.2 d hd
      · rcases List.mem_append.mp hd with h3 | h3
        · exact hyOK.2 d h3
        · simp only [List.mem_singleton] at h3
          subst h3
          exact rfl
    have hd1sum : nsum (days1.map DayGroup.duration) = nsum (y.days.map DayGroup.duration) := by
      rw [hdays1]
      split
      · rfl
      · rw [List.map_append, nsum_append]
        simp [nsum, newDay, nadd_zero_right]
    constructor
    · show nadd y.duration dur = _
      rw [updateFirst_nsum _ _ DayGroup.duration dur (fun d _ => rfl) days1 hany,
        hd1sum, ← hyOK.1]
    · intro d hd
      rcases mem_updateFirst hd with h3 | ⟨d0, hd0, hpd0, rfl⟩
      · exact hd1OK d h3
      · show nadd d0.duration dur = nsum ((d0.entries ++ [e]).map entryDur)
        rw [List.map_append, nsum_append, hd1OK d0 hd0]
        simp [nsum, nadd_zero_right, hdur, entryDur]

theorem groupStep_placeOK (weeks : List WeekGroup) (e : TimeEntry)
    (h : ∀ w ∈ weeks, placeOK w) : ∀ w ∈ groupStep weeks e, placeOK w := by
  intro w hw
  simp only [groupStep] at hw
  have h1 : ∀ w1 ∈ (if weeks.any (fun w => w.start = getStartOfWeek e.date) then weeks
      else weeks ++ [newWeek (getStartOfWeek e.date)]), placeOK w1 := by
    intro w1 hw1
    split at hw1
    · exact h w1 hw1
    · rcases List.mem_append.mp hw1 with h2 | h2
      · exact h w1 h2
      · simp only [List.mem_singleton] at h2
        subst h2
        intro d hd
        simp [newWeek] at hd
  rcases mem_updateFirst hw with h2 | ⟨y, hy, hpy, rfl⟩
  · exact h1 w h2
  · have hyOK := h1 y hy
    simp only [decide_eq_true_eq] at hpy
    set days1 := (if y.days.any (fun d => d.date = e.date) then y.days
      else y.days ++ [newDay e.date]) with hdays1
    have hd1OK : ∀ d ∈ days1,
        getStartOfWeek d.date = y.start ∧ ∀ e1 ∈ d.entries, e1.date = d.date := by
      intro d hd
      rw [hdays1] at hd
      split at hd
      · exact hyOK d hd
      · rcases List.mem_append.mp hd with h3 | h3
        · exact hyOK d h3
        · simp only [List.mem_singleton] at h3
          subst h3
          refine ⟨hpy ▸ rfl, ?_⟩
          intro e1 he1
          simp [newDay] at he1
    intro d hd
    rcases mem_updateFirst hd with h3 | ⟨d0, hd0, hpd0, rfl⟩
    · exact hd1OK d h3
    · simp only [decide_eq_true_eq] at hpd0
      refine ⟨(hd1OK d0 hd0).1, ?_⟩
      intro e1 he1
      rcases List.mem_append.mp he1 with h4 | h4
      · exact (hd1OK d0 hd0).2 e1 h4
      · simp only [List.mem_singleton] at h4
        subst h4
        exact hpd0.symm

theorem groupStep_nsum (weeks : List WeekGroup) (e : TimeEntry) :
    nsum ((groupStep weeks e).map WeekGroup.duration)
      = nadd (nsum (weeks.map WeekGroup.duration)) (entryDur e) := by
  simp only [groupStep]
  set ws := getStartOfWeek e.date with hws
  set dur := calculateDuration e.startTime e.endTime with hdur
  set weeks1 := (if weeks.any (fun w => w.start = ws) then weeks
    else weeks ++ [newWeek ws]) with hweeks1
  have hany : weeks1.any (fun w => w.start = ws) = true := by
    rw [hweeks1]
    split
    · assumption
    · simp [newWeek]
  have h1 : nsum (weeks1.map WeekGroup.duration) = nsum (weeks.map WeekGroup.duration) := by
    rw [hweeks1]
    split
    · rfl
    · rw [List.map_append, nsum_append]
      simp [nsum, newWeek, nadd_zero_right]
  rw [updateFirst_nsum _ _ WeekGroup.duration dur (fun w _ => rfl) weeks1 hany, h1]
  rfl

theorem groupStep_entries_perm (weeks : List WeekGroup) (e : TimeEntry) :
    (weeksEntries (groupStep weeks e)).Perm (weeksEntries weeks ++ [e]) := by
  simp only [groupStep, weeksEntries]
  set ws := getStartOfWeek e.date with hws
  set dur := calculateDuration e.startTime e.endTime with hdur
  set weeks1 := (if weeks.any (fun w => w.start = ws) then weeks
    else weeks ++ [newWeek ws]) with hweeks1
  have hany : weeks1.any (fun w => w.start = ws) = true := by
    rw [hweeks1]
    split
    · assumption
    · simp [newWeek]
  have h1 : weeks1.flatMap (fun w => w.days.flatMap (fun d => d.entries))
      = weeks.flatMap (fun w => w.days.flatMap (fun d => d.entries)) := by
    rw [hweeks1]
    split
    · rfl
    · simp [newWeek]
  refine (updateFirst_flat_perm _ _ (fun w => w.days.flatMap (fun d => d.entries)) e
    ?_ weeks1 hany).trans (by rw [h1])
  intro y hpy
  set days1 := (if y.days.any (fun d => d.date = e.date) then y.days
    else y.days ++ [newDay e.date]) with hdays1
  have hany2 : days1.any (fun d => d.date = e.date) = true := by
    rw [hdays1]
    split
    · assumption
    · simp [newDay]
  have h2 : days1.flatMap (fun d => d.entries) = y.days.flatMap (fun d => d.entries) := by
    rw [hdays1]
    split
    · rfl
    · simp [newDay]
  show ((updateFirst _ _ days1).flatMap (fun d => d.entries)).Perm _
  refine (updateFirst_flat_perm _ _ (fun d => d.entries) e ?_ days1 hany2).trans (by rw [h2])
  intro d _
  exact List.Perm.refl _

theorem entryLe_trans (a b c : TimeEntry) (hab : entryLe a b = true)
    (hbc : entryLe b c = true) : entryLe a c = true := by
  simp only [entryLe] at hab hbc ⊢
  by_cases h1 : a.date = b.date
  · by_cases h2 : b.date = c.date
    · rw [if_pos h1] at hab
      rw [if_pos h2] at hbc
      rw [if_pos (h1.trans h2)]
      exact strLe_trans _ _ _ hbc hab
    · rw [if_neg h2] at hbc
      simp only [decide_eq_true_eq] at hbc
      have : ¬ a.date = c.date := by omega
      rw [if_neg this]
      simp only [decide_eq_true_eq]
      omega
  · rw [if_neg h1] at hab
    simp only [decide_eq_true_eq] at hab
    by_cases h2 : b.date = c.date
    · have : ¬ a.date = c.date := by omega
      rw [if_neg this]
      simp only [decide_eq_true_eq]
      omega
    · rw [if_neg h2] at hbc
      simp only [decide_eq_true_eq] at hbc
      have : ¬ a.date = c.date := by omega
      rw [if_neg this]
      simp only [decide_eq_true_eq]
      omega

theorem entryLe_total (a b : TimeEntry) : (entryLe a b || entryLe b a) = true := by
  simp only [entryLe]
  by_cases h1 : a.date = b.date
  · rw [if_pos h1, if_pos h1.symm]
    exact strLe_total _ _
  · rw [if_neg h1, if_neg (fun h => h1 h.symm)]
    simp only [Bool.or_eq_true, decide_eq_true_eq]
    omega

theorem pairwise_map_updateFirst {α β : Type} {R : β → β → Prop} (p : α → Bool)
    (f : α → α) (g : α → β) (h : ∀ y, p y = true → g (f y) = g y) (l : List α)
    (hp : (l.map g).Pairwise R) : ((updateFirst p f l).map g).Pairwise R := by
  rw [updateFirst_map_eq p f g h]
  exact hp

theorem groupStep_ordered (weeks : List WeekGroup) (e : TimeEntry)
    (hstarts : (weeks.map WeekGroup.start).Pairwise (fun a b => b < a))
    (hdays : ∀ w ∈ weeks, (w.days.map DayGroup.date).Pairwise (fun a b => b < a))
    (hbw : ∀ w ∈ weeks, getStartOfWeek e.date ≤ w.start)
    (hbd : ∀ w ∈ weeks, ∀ d ∈ w.days, e.date ≤ d.date) :
    ((groupStep weeks e).map WeekGroup.start).Pairwise (fun a b => b < a)
    ∧ ∀ w ∈ groupStep weeks e, (w.days.map DayGroup.date).Pairwise (fun a b => b < a) := by
  simp only [groupStep]
  set ws := getStartOfWeek e.date with hws
  set dur := calculateDuration e.startTime e.endTime with hdur
  set weeks1 := (if weeks.any (fun w => w.start = ws) then weeks
    else weeks ++ [newWeek ws]) with hweeks1
  have hstarts1 : (weeks1.map WeekGroup.start).Pairwise (fun a b => b < a) := by
    rw [hweeks1]
    split
    · exact hstarts
    · rename_i hnone
      rw [List.map_append]
      refine List.pairwise_append.mpr ⟨hstarts, by simp [newWeek], ?_⟩
      intro s hs s2 hs2
      simp only [newWeek, List.map_cons, List.map_nil, List.mem_singleton] at hs2
      subst hs2
      rcases List.mem_map.mp hs with ⟨w, hwmem, rfl⟩
      have hle := hbw w hwmem
      have hne : ¬ w.start = ws := by
        intro hcon
        exact hnone (List.any_eq_true.mpr ⟨w, hwmem, by simp [hcon]⟩)
      omega
  have hdays1 : ∀ w ∈ weeks1, (w.days.map DayGroup.date).Pairwise (fun a b => b < a) := by
    intro w hw
    rw [hweeks1] at hw
    split at hw
    · exact hdays w hw
    · rcases List.mem_append.mp hw with h2 | h2
      · exact hdays w h2
      · simp only [List.mem_singleton] at h2
        subst h2
        simp [newWeek]
  have hbd1 : ∀ w ∈ weeks1, ∀ d ∈ w.days, e.date ≤ d.date := by
    intro w hw
    rw [hweeks1] at hw
    split at hw
    · exact hbd w hw
    · rcases List.mem_append.mp hw with h2 | h2
      · exact hbd w h2
      · simp only [List.mem_singleton] at h2
        subst h2
        intro d hd
        simp [newWeek] at hd
  constructor
  · refine pairwise_map_updateFirst _ _ WeekGroup.start ?_ _ hstarts1
    intro y hy
    rfl
  · intro w hw
    rcases mem_updateFirst hw with h2 | ⟨y, hy, hpy, rfl⟩
    · exact hdays1 w h2
    · simp only
      refine pairwise_map_updateFirst _ _ DayGroup.date ?_ _ ?_
      · intro d hd
        rfl
      split
      · exact hdays1 y hy
      · rename_i hnone
        rw [List.map_append]
        refine List.pairwise_append.mpr ⟨hdays1 y hy, by simp [newDay], ?_⟩
        intro t ht t2 ht2
        simp only [newDay, List.map_cons, List.map_nil, List.mem_singleton] at ht2
        subst ht2
        rcases List.mem_map.mp ht with ⟨d, hdmem, rfl⟩
        have hle := hbd1 y hy d hdmem
        have hne : ¬ d.date = e.date := by
          intro hcon
          exact hnone (List.any_eq_true.mpr ⟨d, hdmem, by simp [hcon]⟩)
        omega

theorem groupStep_bounds (weeks : List WeekGroup) (e e2 : TimeEntry)
    (hde : e2.date ≤ e.date)
    (hbw : ∀ w ∈ weeks, getStartOfWeek e2.date ≤ w.start)
    (hbd : ∀ w ∈ weeks, ∀ d ∈ w.days, e2.date ≤ d.date) :
    (∀ w ∈ groupStep weeks e, getStartOfWeek e2.date ≤ w.start)
    ∧ ∀ w ∈ groupStep weeks e, ∀ d ∈ w.days, e2.date ≤ d.date := by
  simp only [groupStep]
  set ws := getStartOfWeek e.date with hws
  set dur := calculateDuration e.startTime e.endTime with hdur
  set weeks1 := (if weeks.any (fun w => w.start = ws) then weeks
    else weeks ++ [newWeek ws]) with hweeks1
  have hbw1 : ∀ w ∈ weeks1, getStartOfWeek e2.date ≤ w.start := by
    intro w hw
    rw [hweeks1] at hw
    split at hw
    · exact hbw w hw
    · rcases List.mem_append.mp hw with h2 | h2
      · exact hbw w h2
      · simp only [List.mem_singleton] at h2
        subst h2
        exact getStartOfWeek_mono hde
  have hbd1 : ∀ w ∈ weeks1, ∀ d ∈ w.days, e2.date ≤ d.date := by
    intro w hw
    rw [hweeks1] at hw
    split at hw
    · exact hbd w hw
    · rcases List.mem_append.mp hw with h2 | h2
      · exact hbd w h2
      · simp only [List.mem_singleton] at h2
        subst h2
        intro d hd
        simp [newWeek] at hd
  constructor
  · intro w hw
    rcases mem_updateFirst hw with h2 | ⟨y, hy, hpy, rfl⟩
    · exact hbw1 w h2
    · exact hbw1 y hy
  · intro w hw
    rcases mem_updateFirst hw with h2 | ⟨y, hy, hpy, rfl⟩
    · exact hbd1 w h2
    · simp only
      intro d hd
      set days1 := (if y.days.any (fun d1 => d1.date = e.date) then y.days
        else y.days ++ [newDay e.date]) with hdays1v
      have hdd1 : ∀ d1 ∈ days1, e2.date ≤ d1.date := by
        intro d1 hd1
        rw [hdays1v] at hd1
        split at hd1
        · exact hbd1 y hy d1 hd1
        · rcases List.mem_append.mp hd1 with h3 | h3
          · exact hbd1 y hy d1 h3
          · simp only [List.mem_singleton] at h3
            subst h3
            exact hde
      rcases mem_updateFirst hd with h3 | ⟨d0, hd0, hpd0, rfl⟩
      · exact hdd1 d h3
      · exact hdd1 d0 hd0

theorem foldl_groupStep_inv (l : List TimeEntry) :
    ∀ weeks : List WeekGroup,
      l.Pairwise (fun a b => b.date ≤ a.date) →
      (∀ w ∈ weeks, weekOK w) →
      (∀ w ∈ weeks, placeOK w) →
      ((weeks.map WeekGroup.start).Pairwise (fun a b => b < a)) →
      (∀ w ∈ weeks, (w.days.map DayGroup.date).Pairwise (fun a b => b < a)) →
      (∀ e ∈ l, ∀ w ∈ weeks, getStartOfWeek e.date ≤ w.start) →
      (∀ e ∈ l, ∀ w ∈ weeks, ∀ d ∈ w.days, e.date ≤ d.date) →
      (∀ w ∈ l.foldl groupStep weeks, weekOK w ∧ placeOK w)
      ∧ ((l.foldl groupStep weeks).map WeekGroup.start).Pairwise (fun a b => b < a)
      ∧ (∀ w ∈ l.foldl groupStep weeks,
          (w.days.map DayGroup.date).Pairwise (fun a b => b < a))
      ∧ nsum ((l.foldl groupStep weeks).map WeekGroup.duration)
          = nadd (nsum (weeks.map WeekGroup.duration)) (nsum (l.map entryDur))
      ∧ (weeksEntries (l.foldl groupStep weeks)).Perm (weeksEntries weeks ++ l) := by
  induction l with
  | nil =>
    intro weeks _ hOK hplace hstarts hdays _ _
    refine ⟨fun w hw => ⟨hOK w hw, hplace w hw⟩, hstarts, hdays, ?_, by simp⟩
    simp [nsum, nadd_zero_right]
  | cons e l ih =>
    intro weeks hsorted hOK hplace hstarts hdays hbw hbd
    have hsorted2 := List.pairwise_cons.mp hsorted
    have hbw0 : ∀ w ∈ weeks, getStartOfWeek e.date ≤ w.start :=
      fun w hw => hbw e (List.mem_cons_self e l) w hw
    have hbd0 : ∀ w ∈ weeks, ∀ d ∈ w.days, e.date ≤ d.date :=
      fun w hw d hd => hbd e (List.mem_cons_self e l) w hw d hd
    have hstep := groupStep_ordered weeks e hstarts hdays hbw0 hbd0
    have hOK2 := groupStep_weekOK weeks e hOK
    have hplace2 := groupStep_placeOK weeks e hplace
    have hbounds : ∀ e2 ∈ l,
        (∀ w ∈ groupStep weeks e, getStartOfWeek e2.date ≤ w.start)
        ∧ ∀ w ∈ groupStep weeks e, ∀ d ∈ w.days, e2.date ≤ d.date := by
      intro e2 he2
      exact groupStep_bounds weeks e e2 (hsorted2.1 e2 he2)
        (fun w hw => hbw e2 (List.mem_cons_of_mem e he2) w hw)
        (fun w hw d hd => hbd e2 (List.mem_cons_of_mem e he2) w hw d hd)
    have := ih (groupStep weeks e) hsorted2.2 hOK2 hplace2 hstep.1 hstep.2
      (fun e2 he2 => (hbounds e2 he2).1) (fun e2 he2 => (hbounds e2 he2).2)
    refine ⟨this.1, this.2.1, this.2.2.1, ?_, ?_⟩
    · show nsum ((List.foldl groupStep (groupStep weeks e) l).map WeekGroup.duration) = _
      rw [this.2.2.2.1, groupStep_nsum]
      simp only [List.map_cons, nsum_cons]
      ac_rfl
    · show (weeksEntries (List.foldl groupStep (groupStep weeks e) l)).Perm _
      refine this.2.2.2.2.trans ?_
      have h1 := (groupStep_entries_perm weeks e).append_right l
      refine h1.trans ?_
      rw [List.append_assoc]
      exact List.Perm.refl _

/-- The mergeSort input relation is transitive and total, so the sorted list
is pairwise `entryLe`. -/
theorem sorted_entries_pairwise (entries : List TimeEntry) :
    (entries.mergeSort entryLe).Pairwise (fun a b => entryLe a b = true) :=
  List.sorted_mergeSort (fun a b c => entryLe_trans a b c) entryLe_total entries

theorem sorted_entries_dateGe (entries : List TimeEntry) :
    (entries.mergeSort entryLe).Pairwise (fun a b => b.date ≤ a.date) := by
  refine (sorted_entries_pairwise entries).imp ?_
  intro a b h
  simp only [entryLe] at h
  split_ifs at h with h1
  · omega
  · simp only [decide_eq_true_eq] at h
    omega

/-- Summary invariant of `groupEntriesByWeek`: totals are consistent, entries
are placed at their date and week, ordering is week-descending and
day-descending, and the stored entries are a permutation of the input. -/
theorem groupEntriesByWeek_inv (entries : List TimeEntry) :
    (∀ w ∈ groupEntriesByWeek entries, weekOK w ∧ placeOK w)
    ∧ ((groupEntriesByWeek entries).map WeekGroup.start).Pairwise (fun a b => b < a)
    ∧ (∀ w ∈ groupEntriesByWeek entries,
        (w.days.map DayGroup.date).Pairwise (fun a b => b < a))
    ∧ nsum ((groupEntriesByWeek entries).map WeekGroup.duration)
        = nsum (entries.map entryDur)
    ∧ (weeksEntries (groupEntriesByWeek entries)).Perm entries := by
  have h := foldl_groupStep_inv (entries.mergeSort entryLe) []
    (sorted_entries_dateGe entries)
    (by intro w hw; simp at hw) (by intro w hw; simp at hw) (by simp)
    (by intro w hw; simp at hw) (by intro e he w hw; simp at hw)
    (by intro e he w hw; simp at hw)
  unfold groupEntriesByWeek
  refine ⟨h.1, h.2.1, h.2.2.1, ?_, ?_⟩
  · rw [h.2.2.2.1]
    show nadd (some 0) _ = _
    have hperm : ((entries.mergeSort entryLe).map entryDur).Perm (entries.map entryDur) :=
      (List.mergeSort_perm entries entryLe).map entryDur
    rw [nsum_perm hperm]
    cases nsum (entries.map entryDur) <;> simp [nadd]
  · have h2 := h.2.2.2.2
    simp only [weeksEntries] at h2 ⊢
    refine h2.trans ?_
    show ([] ++ (entries.mergeSort entryLe)).Perm entries
    simpa using List.mergeSort_perm entries entryLe

theorem nsum_flatMap {α : Type} (g : α → List (Option ℤ)) (l : List α) :
    nsum (l.flatMap g) = nsum (l.map (fun x => nsum (g x))) := by
  induction l with
  | nil => rfl
  | cons a as ih => simp [List.flatMap_cons, nsum_append, ih]

/-- Claim C4: For every pair of well-formed "HH:MM" strings, `calculateDuration`
returns `(end.hour*60 + end.minute) - (start.hour*60 + start.minute)`, plus
1440 when that difference is negative; the result is nonnegative, equal
strings give 0, and start "23:30" / end "00:15" give 45. -/
theorem C4_duration_formula (s e : String) (h1 m1 h2 m2 : ℤ)
    (hs : parseHM s = (some h1, some m1)) (he : parseHM e = (some h2, some m2))
    (hh1 : 0 ≤ h1 ∧ h1 < 24) (hm1 : 0 ≤ m1 ∧ m1 < 60)
    (hh2 : 0 ≤ h2 ∧ h2 < 24) (hm2 : 0 ≤ m2 ∧ m2 < 60) :
    calculateDuration s e
      = some (if (h2 * 60 + m2) - (h1 * 60 + m1) < 0
          then (h2 * 60 + m2) - (h1 * 60 + m1) + 1440
          else (h2 * 60 + m2) - (h1 * 60 + m1))
    ∧ (∀ d : ℤ, calculateDuration s e = some d → 0 ≤ d)
    ∧ (s = e → calculateDuration s e = some 0)
    ∧ calculateDuration "23:30" "00:15" = some 45 := by
  have hval : calculateDuration s e
      = some (if (h2 * 60 + m2) - (h1 * 60 + m1) < 0
          then (h2 * 60 + m2) - (h1 * 60 + m1) + 1440
          else (h2 * 60 + m2) - (h1 * 60 + m1)) := by
    simp only [calculateDuration, hs, he]
    norm_num
  refine ⟨hval, ?_, ?_, by decide⟩
  · intro d hd
    rw [hval] at hd
    simp only [Option.some_inj] at hd
    subst hd
    split <;> omega
  · intro hse
    subst hse
    rw [hs] at he
    simp only [Prod.mk.injEq, Option.some_inj] at he
    rw [hval]
    simp only [he.1, he.2]
    norm_num

theorem C4_duration_formula_witness :
    parseHM "09:30" = (some 9, some 30) ∧ parseHM "10:45" = (some 10, some 45) ∧
    calculateDuration "09:30" "10:45" = some 75 := by
  refine ⟨by decide, by decide, ?_⟩
  have h := C4_duration_formula "09:30" "10:45" 9 30 10 45 (by decide) (by decide)
    (by decide) (by decide) (by decide) (by decide)
  rw [h.1]
  norm_num

/-- Claim C5: For entries with well-formed times, each WeekGroup's total equals
the sum of its DayGroups' totals, each DayGroup's total equals the sum of its
entries' computed durations, and the sum of all DayGroup durations across all
weeks equals the sum of the computed durations of all input entries. -/
theorem C5_group_sum_invariants (entries : List TimeEntry)
    (hwf : ∀ e ∈ entries, wfTime e.startTime = true ∧ wfTime e.endTime = true) :
    (∀ w ∈ groupEntriesByWeek entries,
      w.duration = nsum (w.days.map DayGroup.duration)
      ∧ ∀ d ∈ w.days, d.duration = nsum (d.entries.map entryDur))
    ∧ nsum ((groupEntriesByWeek entries).flatMap
        (fun w => w.days.map DayGroup.duration))
      = nsum (entries.map entryDur) := by
  have h := groupEntriesByWeek_inv entries
  refine ⟨fun w hw => (h.1 w hw).1, ?_⟩
  rw [nsum_flatMap]
  have hmaps : (groupEntriesByWeek entries).map (fun w => nsum (w.days.map DayGroup.duration))
      = (groupEntriesByWeek entries).map WeekGroup.duration := by
    refine List.map_congr_left ?_
    intro w hw
    exact ((h.1 w hw).1.1).symm
  rw [hmaps, h.2.2.2.1]

theorem C5_group_sum_invariants_witness :
    (∀ e ∈ [sampleC5], wfTime e.startTime = true ∧ wfTime e.endTime = true)
    ∧ nsum ((groupEntriesByWeek [sampleC5]).flatMap
        (fun w => w.days.map DayGroup.duration))
      = nsum ([sampleC5].map entryDur) := by
  exact ⟨by decide, (C5_group_sum_invariants [sampleC5] (by decide)).2⟩

unseal List.merge List.mergeSort in
theorem entryMay_example :
    (groupEntriesByWeek [entryMay1, entryMay3]).map (fun w => w.days.map DayGroup.date)
      = [[daysFromCivil 2024 5 3, daysFromCivil 2024 5 1]] := by
  decide

/-- Claim C6: the function `groupEntriesByWeek` returns WeekGroups in descending order of
week start and DayGroups in descending date order within each week, with no
final sort; entries dated 2024-05-01 and 2024-05-03 produce exactly one
WeekGroup whose days are ordered [2024-05-03, 2024-05-01]. -/
theorem C6_grouping_order (entries : List TimeEntry) :
    ((groupEntriesByWeek entries).map WeekGroup.start).Pairwise (fun a b => b < a)
    ∧ (∀ w ∈ groupEntriesByWeek entries,
        (w.days.map DayGroup.date).Pairwise (fun a b => b < a))
    ∧ (groupEntriesByWeek [entryMay1, entryMay3]).map (fun w => w.days.map DayGroup.date)
        = [[daysFromCivil 2024 5 3, daysFromCivil 2024 5 1]] := by
  have h := groupEntriesByWeek_inv entries
  exact ⟨h.2.1, h.2.2.1, entryMay_example⟩

/-- Claim C10: the grouping partitions its input: the entries stored across all
DayGroups are a permutation of the input entries; each entry sits in a
DayGroup of its own calendar date; that DayGroup sits in the WeekGroup whose
start is the Monday on or before the entry's date (within 6 days). -/
theorem C10_grouping_partition (entries : List TimeEntry) :
    (weeksEntries (groupEntriesByWeek entries)).Perm entries
    ∧ ∀ w ∈ groupEntriesByWeek entries, ∀ d ∈ w.days,
        getStartOfWeek d.date = w.start
        ∧ (∀ e ∈ d.entries, e.date = d.date)
        ∧ (w.start + 4) % 7 = 1
        ∧ ∀ e ∈ d.entries, w.start ≤ e.date ∧ e.date < w.start + 7 := by
  have h := groupEntriesByWeek_inv entries
  refine ⟨h.2.2.2.2, ?_⟩
  intro w hw d hd
  have hpl := (h.1 w hw).2 d hd
  refine ⟨hpl.1, hpl.2, ?_, ?_⟩
  · rw [← hpl.1]
    exact getStartOfWeek_isMonday d.date
  · intro e he
    have hdate := hpl.2 e he
    rw [hdate, ← hpl.1]
    exact ⟨getStartOfWeek_le d.date, lt_getStartOfWeek_add d.date⟩

theorem strEq_of_data {a b : String} (h : a.data = b.data) : a = b := by
  cases a
  cases b
  exact congrArg String.mk h

theorem availableProjects_eq_sort_filter (projects : List Project)
    (clients : List Client) (sel : ClientSel) :
    availableProjects projects clients sel
      = sortProjects (projects.filter (selPred clients sel)) := by
  cases sel with
  | all =>
    show sortProjects projects = sortProjects (projects.filter (fun _ => true))
    rw [List.filter_true]
  | noClient => rfl
  | clientId cid =>
    simp only [availableProjects]
    have hsel : selPred clients (ClientSel.clientId cid)
        = fun p => (match clients.find? (fun c => c.id = cid) with
          | some c => decide (p.client = some c.name)
          | none => false) := rfl
    rw [hsel]
    cases hfind : clients.find? (fun c => c.id = cid) with
    | none => simp [List.filter_false]
    | some c => simp

theorem projLe_trans (a b c : Project) (hab : projLe a b = true)
    (hbc : projLe b c = true) : projLe a c = true := by
  simp only [projLe] at hab hbc ⊢
  by_cases h1 : clientKey a = clientKey b
  · by_cases h2 : clientKey b = clientKey c
    · rw [if_pos h1] at hab
      rw [if_pos h2] at hbc
      rw [if_pos (h1.trans h2)]
      exact strLe_trans _ _ _ hab hbc
    · rw [if_neg h2] at hbc
      rw [if_neg (h1 ▸ h2), h1]
      exact hbc
  · by_cases h2 : clientKey b = clientKey c
    · rw [if_neg h1] at hab
      rw [if_neg (h2 ▸ h1), ← h2]
      exact hab
    · rw [if_neg h1] at hab
      rw [if_neg h2] at hbc
      have htr : strLt (clientKey a) (clientKey c) = true := cuLt_trans hab hbc
      have hne : ¬ clientKey a = clientKey c := by
        intro hcon
        rw [hcon] at htr
        unfold strLt at htr
        rw [cuLt_irrefl] at htr
        exact Bool.false_ne_true htr
      rw [if_neg hne]
      exact htr

theorem projLe_total (a b : Project) : (projLe a b || projLe b a) = true := by
  simp only [projLe]
  by_cases h1 : clientKey a = clientKey b
  · rw [if_pos h1, if_pos h1.symm]
    exact strLe_total _ _
  · rw [if_neg h1, if_neg (fun h => h1 h.symm)]
    by_cases h2 : strLt (clientKey a) (clientKey b) = true
    · simp [h2]
    · have h3 : strLt (clientKey b) (clientKey a) = true := by
        by_contra h3
        exact h1 (strEq_of_data
          (cuLt_asymm_eq (Bool.not_eq_true _ ▸ h2) (Bool.not_eq_true _ ▸ h3)))
      simp [h3]

unseal List.merge List.mergeSort in
/-- Claim C7, counterexample: the claim says every project with no client
sorts after every project that has a client; with a client named "zzz"
(lexicographically after the fallback key "zz") the no-client project comes
first. -/
theorem C7_no_client_last_counterexample :
    availableProjects [projZZZ, projNoClient] [] ClientSel.all
      = [projNoClient, projZZZ]
    ∧ hasClient projZZZ = true ∧ hasClient projNoClient = false := by
  refine ⟨by decide, by decide, by decide⟩

/-- Claim C7 as amended: the list `availableProjects` is a permutation of the catalog
filtered by the client selector, and is pairwise ordered by the comparator
`projLe`: by client name and then by project name, where a project without a
client (or with an empty client name) sorts under the literal key "zz" rather
than strictly last. -/
theorem C7_availableProjects_sorted (projects : List Project) (clients : List Client)
    (sel : ClientSel) :
    (availableProjects projects clients sel).Perm
        (projects.filter (selPred clients sel))
    ∧ (availableProjects projects clients sel).Pairwise (fun a b => projLe a b = true) := by
  rw [availableProjects_eq_sort_filter]
  constructor
  · exact List.mergeSort_perm _ _
  · exact List.sorted_mergeSort (fun a b c => projLe_trans a b c) projLe_total _

unseal List.merge List.mergeSort in
/-- Claim C8, counterexample: with the 'all' client selector, computing
`availableProjects` leaves the `projects` input array reordered (in-place
`sort`), so the input does not keep its element order. -/
theorem C8_mutation_counterexample :
    (availableProjectsRun [projB, projA] [] ClientSel.all).2 = [projA, projB]
    ∧ (availableProjectsRun [projB, projA] [] ClientSel.all).2 ≠ [projB, projA] := by
  refine ⟨by decide, by decide⟩

/-- Claim C8 as amended: the grouping and the aggregation leave every input
collection unchanged; the available-project resolution keeps the same
elements of the `projects` array (a permutation) and leaves it untouched
whenever the selector is not 'all', but with the 'all' selector it reorders
the array in place. -/
theorem C8_no_mutation_except_projects_sort (entries : List TimeEntry)
    (projects : List Project) (clients : List Client)
    (licenses servers domains : List CostItem) (year : ℤ) (sel : ClientSel)
    (selectedIds : List String) (inv : InvoiceFilter) :
    (groupEntriesByWeekRun entries).2 = entries
    ∧ (processedDataRun entries projects clients licenses servers domains year
        sel selectedIds inv).2 = (entries, licenses, servers, domains, clients)
    ∧ ((availableProjectsRun projects clients sel).2).Perm projects
    ∧ (sel ≠ ClientSel.all → (availableProjectsRun projects clients sel).2 = projects) := by
  refine ⟨rfl, rfl, ?_, ?_⟩
  · cases sel with
    | all => exact List.mergeSort_perm _ _
    | noClient => exact List.Perm.refl _
    | clientId cid => exact List.Perm.refl _
  · intro hne
    cases sel with
    | all => exact absurd rfl hne
    | noClient => rfl
    | clientId cid => rfl

/-! ## Claims C1, C2 and C3 -/

theorem foldl_nqadd_from {α : Type} (f : α → Option ℚ) (l : List α) :
    ∀ b : Option ℚ, l.foldl (fun acc x => nqadd acc (f x)) b = nqadd b (nqsum (l.map f)) := by
  induction l with
  | nil =>
    intro b
    simp only [List.foldl_nil, List.map_nil, nqsum_nil]
    exact (nqadd_zero_right b).symm
  | cons a as ih =>
    intro b
    simp only [List.foldl_cons, List.map_cons, nqsum_cons, ih]
    ac_rfl

theorem foldl_nqadd_eq_nqsum {α : Type} (f : α → Option ℚ) (l : List α) :
    l.foldl (fun acc x => nqadd acc (f x)) (some 0) = nqsum (l.map f) := by
  rw [foldl_nqadd_from]
  cases nqsum (l.map f) with
  | none => rfl
  | some q => simp [nqadd]

theorem nqsum_none_of_mem {l : List (Option ℚ)} (h : none ∈ l) : nqsum l = none := by
  induction l with
  | nil => simp at h
  | cons a as ih =>
    rcases List.mem_cons.mp h with h1 | h1
    · rw [nqsum_cons, ← h1]
      rfl
    · rw [nqsum_cons, ih h1]
      cases a <;> rfl

theorem filter_of_subpred {α : Type} (P Q : α → Bool)
    (h : ∀ a, P a = true → Q a = true) :
    ∀ l : List α, (l.filter Q).filter P = l.filter P := by
  intro l
  induction l with
  | nil => rfl
  | cons a as ih =>
    by_cases hq : Q a = true
    · simp only [List.filter_cons, hq, if_true]
      by_cases hp : P a = true
      · simp [hp, ih]
      · simp only [Bool.not_eq_true] at hp
        simp [hp, ih]
    · simp only [Bool.not_eq_true] at hq
      have hp : P a = false := by
        by_contra hcon
        simp only [Bool.not_eq_false] at hcon
        rw [h a hcon] at hq
        exact Bool.noConfusion hq
      simp [List.filter_cons, hq, hp, ih]

unseal List.merge List.mergeSort in
/-- Claim C1, counterexample: the duration of an entry whose "HH:MM" start
has an unparseable component is NaN (`none`), not zero, and that NaN reaches
the March `totalHours` and the year's `grandTotalHours` (date 19792 is
2024-03-10). -/
theorem C1_nan_counterexample :
    getDurationInHours "ab:30" "10:00" = none
    ∧ ((processedData [entryBadTime] [projP] [] [] [] [] 2024 ClientSel.all
        ["p"] InvoiceFilter.all).monthlyData[2]?).map MonthlyAgg.totalHours
      = some none
    ∧ (processedData [entryBadTime] [projP] [] [] [] [] 2024 ClientSel.all
        ["p"] InvoiceFilter.all).grandTotalHours = none := by
  refine ⟨by decide, by decide, by decide⟩

/-- Claim C1 as amended: a malformed "HH:MM" component makes
`calculateDuration` return NaN (`none`), and that NaN propagates into the
entry's month's `totalHours` and into `grandTotalHours`; it is not replaced
by zero. -/
theorem C1_nan_propagates (entries : List TimeEntry) (projects : List Project)
    (clients : List Client) (licenses servers domains : List CostItem) (year : ℤ)
    (sel : ClientSel) (selectedIds : List String) (inv : InvoiceFilter) (e : TimeEntry)
    (he : e ∈ entries) (hy : yearOf e.date = year)
    (hp : (processedData entries projects clients licenses servers domains year sel
        selectedIds inv).relevantProjectIds.contains e.project = true)
    (hi : invoiceMatch inv e.invoiced = true)
    (hbad : calculateDuration e.startTime e.endTime = none) :
    (∃ mr ∈ (processedData entries projects clients licenses servers domains year sel
        selectedIds inv).monthlyData, mr.totalHours = none)
    ∧ (processedData entries projects clients licenses servers domains year sel
        selectedIds inv).grandTotalHours = none := by
  set activeIds := activeProjectIdsOf selectedIds (availableProjects projects clients sel)
    with hact
  have hyearE : e ∈ yearEntriesOf entries year activeIds inv := by
    refine List.mem_filter.mpr ⟨he, ?_⟩
    simp only [Bool.and_eq_true, decide_eq_true_eq]
    exact ⟨⟨hy, hp⟩, hi⟩
  have hmb := monthOf_bounds e.date
  set m := (monthOf e.date).toNat with hm
  have hmz : (m : ℤ) = monthOf e.date := by omega
  have hmonthE : e ∈ (yearEntriesOf entries year activeIds inv).filter
      (fun e1 => monthOf e1.date = (m : ℤ)) := by
    refine List.mem_filter.mpr ⟨hyearE, ?_⟩
    simp [hmz]
  have hTH : (monthAgg (yearEntriesOf entries year activeIds inv) projects licenses
      servers domains year activeIds inv m).totalHours = none := by
    show List.foldl _ (some 0) _ = none
    rw [foldl_nqadd_eq_nqsum]
    refine nqsum_none_of_mem ?_
    refine List.mem_map.mpr ⟨e, hmonthE, ?_⟩
    simp [getDurationInHours, hbad]
  have hmem : (monthAgg (yearEntriesOf entries year activeIds inv) projects licenses
      servers domains year activeIds inv m)
      ∈ (processedData entries projects clients licenses servers domains year sel
        selectedIds inv).monthlyData := by
    show _ ∈ (List.range 12).map _
    refine List.mem_map.mpr ⟨m, ?_, rfl⟩
    refine List.mem_range.mpr ?_
    omega
  refine ⟨⟨_, hmem, hTH⟩, ?_⟩
  show List.foldl (fun acc mr => nqadd acc mr.totalHours) (some 0)
    ((processedData entries projects clients licenses servers domains year sel
        selectedIds inv).monthlyData) = none
  rw [foldl_nqadd_from]
  rw [nqsum_none_of_mem (List.mem_map.mpr ⟨_, hmem, hTH⟩)]
  rfl

unseal List.merge List.mergeSort in
theorem C1_nan_propagates_witness :
    entryBadTime ∈ [entryBadTime]
    ∧ yearOf entryBadTime.date = 2024
    ∧ (processedData [entryBadTime] [projP] [] [] [] [] 2024 ClientSel.all
        ["p"] InvoiceFilter.all).relevantProjectIds.contains entryBadTime.project = true
    ∧ invoiceMatch InvoiceFilter.all entryBadTime.invoiced = true
    ∧ calculateDuration entryBadTime.startTime entryBadTime.endTime = none
    ∧ (processedData [entryBadTime] [projP] [] [] [] [] 2024 ClientSel.all
        ["p"] InvoiceFilter.all).grandTotalHours = none := by
  refine ⟨by decide, by decide, by decide, by decide, by decide, ?_⟩
  exact (C1_nan_propagates [entryBadTime] [projP] [] [] [] [] 2024 ClientSel.all
    ["p"] InvoiceFilter.all entryBadTime (by decide) (by decide) (by decide)
    (by decide) (by decide)).2

/-- Claim C2: the code at src/components/Reports.tsx line 165 computes
`entry.billable ? hours * rate : 0`, so an entry with an absent billable flag
contributes zero, while the claim (default true, as the rest of the app
assumes: App.tsx line 122 creates entries with `billable: true` and
EditTimeEntryModal.tsx line 33 reads `entry.billable ?? true`) expects
2 h x 50 = 100. -/
theorem C2_billable_default_divergence :
    entryNoBillable.billable = none
    ∧ (monthAgg [entryNoBillable] [projWebsite] [] [] [] 2024 ["w"]
        InvoiceFilter.all 2).hoursAmount = some 0
    ∧ hoursAmountSpec [projWebsite] [entryNoBillable] = some 100 := by
  have hm : monthOf (19792 : ℤ) = 2 := by decide
  refine ⟨rfl, ?_, ?_⟩
  · show List.foldl _ (some 0) _ = some 0
    have hfilter : [entryNoBillable].filter (fun e => monthOf e.date = (2 : ℤ))
        = [entryNoBillable] := by
      simp [entryNoBillable, hm]
    simp only [Nat.cast_ofNat]
    rw [hfilter]
    simp only [List.foldl_cons, List.foldl_nil]
    show nqadd (some 0) (if (none : Option Bool) = some true then _ else some 0) = some 0
    rw [if_neg (fun h => Option.noConfusion h)]
    simp [nqadd]
  · show nqsum _ = some 100
    have hdur : getDurationInHours "09:00" "11:00" = some 2 := by
      have : calculateDuration "09:00" "11:00" = some 120 := by decide
      simp [getDurationInHours, this]
      norm_num
    simp only [hoursAmountSpec, List.filter_cons, List.filter_nil]
    norm_num [entryNoBillable, projWebsite, hdur, nqsum, nqadd, nqmul]

/-- Claim C3: the project-id set used by the aggregation is the intersection
of the chosen set with the ids of `availableProjects` — hence a subset of the
currently available set — and entries or cost items whose project id lies
outside that intersection contribute nothing: the aggregation computes the
same `ProcessedData` when they are removed from the inputs. -/
theorem C3_stale_ids_never_leak (entries : List TimeEntry) (projects : List Project)
    (clients : List Client) (licenses servers domains : List CostItem) (year : ℤ)
    (sel : ClientSel) (selectedIds : List String) (inv : InvoiceFilter) :
    (∀ pid ∈ (processedData entries projects clients licenses servers domains year sel
        selectedIds inv).relevantProjectIds,
      pid ∈ (availableProjects projects clients sel).map Project.id)
    ∧ processedData entries projects clients licenses servers domains year sel
        selectedIds inv
      = processedData
          (entries.filter (fun e => (activeProjectIdsOf selectedIds
            (availableProjects projects clients sel)).contains e.project))
          projects clients
          (licenses.filter (fun it => (activeProjectIdsOf selectedIds
            (availableProjects projects clients sel)).contains it.project))
          (servers.filter (fun it => (activeProjectIdsOf selectedIds
            (availableProjects projects clients sel)).contains it.project))
          (domains.filter (fun it => (activeProjectIdsOf selectedIds
            (availableProjects projects clients sel)).contains it.project))
          year sel selectedIds inv := by
  set avail := availableProjects projects clients sel with havail
  set activeIds := activeProjectIdsOf selectedIds avail with hactive
  constructor
  · intro pid hpid
    have h1 : pid ∈ activeIds := hpid
    rw [hactive] at h1
    have h2 := (List.mem_filter.mp h1).2
    simpa using h2
  · have hentries : yearEntriesOf (entries.filter
        (fun e => activeIds.contains e.project)) year activeIds inv
        = yearEntriesOf entries year activeIds inv := by
      unfold yearEntriesOf
      refine filter_of_subpred _ _ ?_ entries
      intro a ha
      simp only [Bool.and_eq_true] at ha
      exact ha.1.2
    have hcost : ∀ items : List CostItem, ∀ m : ℕ,
        costAmount (items.filter (fun it => activeIds.contains it.project)) m year
          activeIds inv
        = costAmount items m year activeIds inv := by
      intro items m
      unfold costAmount
      rw [filter_of_subpred _ _ ?_ items]
      intro a ha
      simp only [Bool.and_eq_true] at ha
      exact ha.1.2
    show ProcessedData.mk _ _ _ _ = ProcessedData.mk _ _ _ _
    have hmd : monthlyData (yearEntriesOf entries year activeIds inv) projects licenses
        servers domains year activeIds inv
        = monthlyData (yearEntriesOf (entries.filter
            (fun e => activeIds.contains e.project)) year activeIds inv) projects
          (licenses.filter (fun it => activeIds.contains it.project))
          (servers.filter (fun it => activeIds.contains it.project))
          (domains.filter (fun it => activeIds.contains it.project))
          year activeIds inv := by
      unfold monthlyData
      refine List.map_congr_left ?_
      intro m _
      unfold monthAgg
      rw [hentries, hcost licenses m, hcost servers m, hcost domains m]
    rw [hmd]

theorem strLeKey_trans {α : Type} (k : α → String) (a b c : α)
    (hab : strLe (k a) (k b) = true) (hbc : strLe (k b) (k c) = true) :
    strLe (k a) (k c) = true :=
  strLe_trans _ _ _ hab hbc

theorem strLeKey_total {α : Type} (k : α → String) (a b : α) :
    (strLe (k a) (k b) || strLe (k b) (k a)) = true :=
  strLe_total _ _

theorem pushProj_flat_perm (ps : List (String × List TimeEntry)) (pn : String)
    (e : TimeEntry) :
    ((pushProj ps pn e).flatMap (fun pb => pb.2)).Perm
      (ps.flatMap (fun pb => pb.2) ++ [e]) := by
  simp only [pushProj]
  set ps1 := (if ps.any (fun kv => kv.1 = pn) then ps else ps ++ [(pn, [])]) with hps1
  have hany : ps1.any (fun kv => kv.1 = pn) = true := by
    rw [hps1]
    split
    · assumption
    · simp
  have h1 : ps1.flatMap (fun pb => pb.2) = ps.flatMap (fun pb => pb.2) := by
    rw [hps1]
    split
    · rfl
    · simp
  refine (updateFirst_flat_perm _ _ (fun pb => pb.2) e ?_ ps1 hany).trans (by rw [h1])
  intro y _
  exact List.Perm.refl _

theorem pushEntry_flat_perm (g : List (String × List (String × List TimeEntry)))
    (cn pn : String) (e : TimeEntry) :
    (flatG (pushEntry g cn pn e)).Perm (flatG g ++ [e]) := by
  simp only [pushEntry, flatG]
  set g1 := (if g.any (fun kv => kv.1 = cn) then g else g ++ [(cn, [])]) with hg1
  have hany : g1.any (fun kv => kv.1 = cn) = true := by
    rw [hg1]
    split
    · assumption
    · simp
  have h1 : g1.flatMap (fun c => c.2.flatMap (fun pb => pb.2))
      = g.flatMap (fun c => c.2.flatMap (fun pb => pb.2)) := by
    rw [hg1]
    split
    · rfl
    · simp
  refine (updateFirst_flat_perm _ _ (fun c => c.2.flatMap (fun pb => pb.2)) e
    ?_ g1 hany).trans (by rw [h1])
  intro y _
  exact pushProj_flat_perm y.2 pn e

theorem pushProj_ordered (ps : List (String × List TimeEntry)) (pn : String)
    (e : TimeEntry)
    (ho : ∀ pb ∈ ps, (pb.2.map TimeEntry.date).Pairwise (fun a b => a ≤ b))
    (hb : ∀ pb ∈ ps, ∀ e1 ∈ pb.2, e1.date ≤ e.date) :
    ∀ pb ∈ pushProj ps pn e, (pb.2.map TimeEntry.date).Pairwise (fun a b => a ≤ b) := by
  intro pb hpb
  simp only [pushProj] at hpb
  set ps1 := (if ps.any (fun kv => kv.1 = pn) then ps else ps ++ [(pn, [])]) with hps1
  have ho1 : ∀ pb1 ∈ ps1, (pb1.2.map TimeEntry.date).Pairwise (fun a b => a ≤ b)
      ∧ ∀ e1 ∈ pb1.2, e1.date ≤ e.date := by
    intro pb1 hpb1
    rw [hps1] at hpb1
    split at hpb1
    · exact ⟨ho pb1 hpb1, hb pb1 hpb1⟩
    · rcases List.mem_append.mp hpb1 with h2 | h2
      · exact ⟨ho pb1 h2, hb pb1 h2⟩
      · simp only [List.mem_singleton] at h2
        subst h2
        exact ⟨by simp, by simp⟩
  rcases mem_updateFirst hpb with h2 | ⟨y, hy, hpy, rfl⟩
  · exact (ho1 pb h2).1
  · show ((y.2 ++ [e]).map TimeEntry.date).Pairwise (fun a b => a ≤ b)
    rw [List.map_append]
    refine List.pairwise_append.mpr ⟨(ho1 y hy).1, by simp, ?_⟩
    intro t ht t2 ht2
    simp only [List.map_cons, List.map_nil, List.mem_singleton] at ht2
    subst ht2
    rcases List.mem_map.mp ht with ⟨e1, he1, rfl⟩
    exact (ho1 y hy).2 e1 he1

theorem pushProj_bound (ps : List (String × List TimeEntry)) (pn : String)
    (e : TimeEntry) (x : ℤ) (hex : e.date ≤ x)
    (hb : ∀ pb ∈ ps, ∀ e1 ∈ pb.2, e1.date ≤ x) :
    ∀ pb ∈ pushProj ps pn e, ∀ e1 ∈ pb.2, e1.date ≤ x := by
  intro pb hpb
  simp only [pushProj] at hpb
  set ps1 := (if ps.any (fun kv => kv.1 = pn) then ps else ps ++ [(pn, [])]) with hps1
  have hb1 : ∀ pb1 ∈ ps1, ∀ e1 ∈ pb1.2, e1.date ≤ x := by
    intro pb1 hpb1
    rw [hps1] at hpb1
    split at hpb1
    · exact hb pb1 hpb1
    · rcases List.mem_append.mp hpb1 with h2 | h2
      · exact hb pb1 h2
      · simp only [List.mem_singleton] at h2
        subst h2
        simp
  rcases mem_updateFirst hpb with h2 | ⟨y, hy, hpy, rfl⟩
  · exact hb1 pb h2
  · intro e1 he1
    rcases List.mem_append.mp he1 with h3 | h3
    · exact hb1 y hy e1 h3
    · simp only [List.mem_singleton] at h3
      subst h3
      exact hex

theorem pushEntry_ordered (g : List (String × List (String × List TimeEntry)))
    (cn pn : String) (e : TimeEntry) (ho : blockOrdered g) (hb : blockLe g e.date) :
    blockOrdered (pushEntry g cn pn e) := by
  intro c hc
  simp only [pushEntry] at hc
  set g1 := (if g.any (fun kv => kv.1 = cn) then g else g ++ [(cn, [])]) with hg1
  have h1 : ∀ c1 ∈ g1, (∀ pb ∈ c1.2, (pb.2.map TimeEntry.date).Pairwise (fun a b => a ≤ b))
      ∧ ∀ pb ∈ c1.2, ∀ e1 ∈ pb.2, e1.date ≤ e.date := by
    intro c1 hc1
    rw [hg1] at hc1
    split at hc1
    · exact ⟨ho c1 hc1, hb c1 hc1⟩
    · rcases List.mem_append.mp hc1 with h2 | h2
      · exact ⟨ho c1 h2, hb c1 h2⟩
      · simp only [List.mem_singleton] at h2
        subst h2
        exact ⟨by simp, by simp⟩
  rcases mem_updateFirst hc with h2 | ⟨y, hy, hpy, rfl⟩
  · exact (h1 c h2).1
  · exact pushProj_ordered y.2 pn e (h1 y hy).1 (h1 y hy).2

theorem pushEntry_bound (g : List (String × List (String × List TimeEntry)))
    (cn pn : String) (e : TimeEntry) (x : ℤ) (hex : e.date ≤ x)
    (hb : blockLe g x) : blockLe (pushEntry g cn pn e) x := by
  intro c hc
  simp only [pushEntry] at hc
  set g1 := (if g.any (fun kv => kv.1 = cn) then g else g ++ [(cn, [])]) with hg1
  have h1 : ∀ c1 ∈ g1, ∀ pb ∈ c1.2, ∀ e1 ∈ pb.2, e1.date ≤ x := by
    intro c1 hc1
    rw [hg1] at hc1
    split at hc1
    · exact hb c1 hc1
    · rcases List.mem_append.mp hc1 with h2 | h2
      · exact hb c1 h2
      · simp only [List.mem_singleton] at h2
        subst h2
        simp
  rcases mem_updateFirst hc with h2 | ⟨y, hy, hpy, rfl⟩
  · exact h1 c h2
  · exact pushProj_bound y.2 pn e x hex (h1 y hy)

theorem foldl_grouped_inv (projects : List Project) (l : List TimeEntry) :
    ∀ g, l.Pairwise (fun a b => a.date ≤ b.date) →
      blockOrdered g → (∀ e ∈ l, blockLe g e.date) →
      (∀ e ∈ l, (projects.find? (fun p => p.id = e.project)).isSome = true) →
      blockOrdered (l.foldl (fun g1 e =>
        match projects.find? (fun p => p.id = e.project) with
        | none => g1
        | some project => pushEntry g1 (clientNameOf project) project.name e) g)
      ∧ (flatG (l.foldl (fun g1 e =>
          match projects.find? (fun p => p.id = e.project) with
          | none => g1
          | some project => pushEntry g1 (clientNameOf project) project.name e) g)).Perm
        (flatG g ++ l) := by
  induction l with
  | nil =>
    intro g _ ho _ _
    exact ⟨ho, by simp⟩
  | cons e l ih =>
    intro g hsorted ho hb hfind
    have hsorted2 := List.pairwise_cons.mp hsorted
    cases hf : projects.find? (fun p => p.id = e.project) with
    | none =>
      have := hfind e (List.mem_cons_self e l)
      rw [hf] at this
      simp at this
    | some project =>
      have hg2o : blockOrdered (pushEntry g (clientNameOf project) project.name e) :=
        pushEntry_ordered g _ _ e ho (hb e (List.mem_cons_self e l))
      have hg2b : ∀ e2 ∈ l, blockLe (pushEntry g (clientNameOf project) project.name e)
          e2.date := by
        intro e2 he2
        exact pushEntry_bound g _ _ e e2.date (hsorted2.1 e2 he2)
          (fun c hc pb hpb e1 he1 =>
            le_trans (hb e (List.mem_cons_self e l) c hc pb hpb e1 he1)
              (hsorted2.1 e2 he2))
      have := ih (pushEntry g (clientNameOf project) project.name e) hsorted2.2 hg2o hg2b
        (fun e2 he2 => hfind e2 (List.mem_cons_of_mem e he2))
      refine ⟨?_, ?_⟩
      · show blockOrdered (List.foldl _ (match projects.find? (fun p => p.id = e.project) with
          | none => g
          | some project => pushEntry g (clientNameOf project) project.name e) l)
        rw [hf]
        exact this.1
      · show (flatG (List.foldl _ (match projects.find? (fun p => p.id = e.project) with
          | none => g
          | some project => pushEntry g (clientNameOf project) project.name e) l)).Perm _
        rw [hf]
        refine this.2.trans ?_
        refine ((pushEntry_flat_perm g _ _ e).append_right l).trans ?_
        rw [List.append_assoc]
        exact List.Perm.refl _

theorem nqsum_map_zero {α : Type} (l : List α) :
    nqsum (l.map (fun _ => (some 0 : Option ℚ))) = some 0 := by
  induction l with
  | nil => rfl
  | cons a as ih =>
    rw [List.map_cons, nqsum_cons, ih]
    show some ((0 : ℚ) + 0) = some 0
    norm_num

theorem nqsum_map_add_single (k0 : ℤ) (x : Option ℚ) (F : ℤ → Option ℚ) :
    ∀ keys : List ℤ, k0 ∈ keys → keys.Nodup →
      nqsum (keys.map (fun k => if k0 = k then nqadd x (F k) else F k))
        = nqadd x (nqsum (keys.map F)) := by
  intro keys
  induction keys with
  | nil => intro h; simp at h
  | cons k ks ih =>
    intro hmem hnd
    rcases List.mem_cons.mp hmem with h1 | h1
    · subst h1
      have hnotin : k0 ∉ ks := (List.nodup_cons.mp hnd).1
      have hrest : ks.map (fun k => if k0 = k then nqadd x (F k) else F k) = ks.map F := by
        refine List.map_congr_left ?_
        intro b hb
        rw [if_neg (fun hcon => hnotin (by rw [hcon]; exact hb))]
      simp only [List.map_cons, nqsum_cons, hrest, if_true, ite_true,
        eq_self_iff_true]
      ac_rfl
    · have hne : ¬ k0 = k := by
        intro hcon
        subst hcon
        exact (List.nodup_cons.mp hnd).1 h1
      simp only [List.map_cons, nqsum_cons, if_neg hne]
      rw [ih h1 (List.nodup_cons.mp hnd).2]
      ac_rfl

theorem nqsum_buckets {α : Type} (f : α → ℤ) (g : α → Option ℚ) (keys : List ℤ)
    (hnd : keys.Nodup) :
    ∀ l : List α, (∀ a ∈ l, f a ∈ keys) →
      nqsum (keys.map (fun k => nqsum ((l.filter (fun a => f a = k)).map g)))
        = nqsum (l.map g) := by
  intro l
  induction l with
  | nil =>
    intro _
    simp only [List.filter_nil, List.map_nil, nqsum_nil]
    exact nqsum_map_zero keys
  | cons a as ih =>
    intro hcov
    have hmaps : keys.map (fun k => nqsum (((a :: as).filter (fun b => f b = k)).map g))
        = keys.map (fun k => if f a = k
            then nqadd (g a) (nqsum ((as.filter (fun b => f b = k)).map g))
            else nqsum ((as.filter (fun b => f b = k)).map g)) := by
      refine List.map_congr_left ?_
      intro k _
      by_cases hk : f a = k
      · simp [List.filter_cons, hk]
      · simp [List.filter_cons, hk]
    rw [hmaps, nqsum_map_add_single (f a) (g a) _ keys
      (hcov a (List.mem_cons_self a as)) hnd,
      ih (fun b hb => hcov b (List.mem_cons_of_mem a hb))]
    rfl

/-- Every id in the reconciled active set refers to a project of the
catalog. -/
theorem activeIds_in_catalog (projects : List Project) (clients : List Client)
    (sel : ClientSel) (selectedIds : List String) :
    ∀ pid ∈ activeProjectIdsOf selectedIds (availableProjects projects clients sel),
      ∃ p ∈ projects, p.id = pid := by
  intro pid hpid
  have h1 := (List.mem_filter.mp hpid).2
  have h2 : pid ∈ (availableProjects projects clients sel).map Project.id := by
    simpa using h1
  rcases List.mem_map.mp h2 with ⟨p, hp, rfl⟩
  have hperm : (availableProjects projects clients sel).Perm
      (projects.filter (selPred clients sel)) := by
    rw [availableProjects_eq_sort_filter]
    exact List.mergeSort_perm _ _
  exact ⟨p, List.mem_of_mem_filter (hperm.mem_iff.mp hp), rfl⟩

theorem monthAgg_totalHours_eq (yearE : List TimeEntry) (projects : List Project)
    (licenses servers domains : List CostItem) (year : ℤ) (activeIds : List String)
    (inv : InvoiceFilter) (m : ℕ) :
    (monthAgg yearE projects licenses servers domains year activeIds inv m).totalHours
      = nqsum ((yearE.filter (fun e => monthOf e.date = (m : ℤ))).map
          (fun e => getDurationInHours e.startTime e.endTime)) := by
  show List.foldl _ (some 0) _ = _
  rw [foldl_nqadd_eq_nqsum]

/-- The year's grand total of hours is the NaN-propagating sum of the
durations of all filtered entries: the twelve month buckets partition the
filtered set because every `monthOf` value lies in 0..11. -/
theorem grandTotalHours_eq (entries : List TimeEntry) (projects : List Project)
    (clients : List Client) (licenses servers domains : List CostItem) (year : ℤ)
    (sel : ClientSel) (selectedIds : List String) (inv : InvoiceFilter) :
    (processedData entries projects clients licenses servers domains year sel
        selectedIds inv).grandTotalHours
      = nqsum ((yearEntriesOf entries year
          (activeProjectIdsOf selectedIds (availableProjects projects clients sel))
          inv).map (fun e => getDurationInHours e.startTime e.endTime)) := by
  set activeIds := activeProjectIdsOf selectedIds (availableProjects projects clients sel)
    with hact
  set yearE := yearEntriesOf entries year activeIds inv with hyearE
  have hmd : (processedData entries projects clients licenses servers domains year sel
      selectedIds inv).monthlyData
      = monthlyData yearE projects licenses servers domains year activeIds inv := rfl
  show List.foldl (fun acc mr => nqadd acc mr.totalHours) (some 0)
    ((processedData entries projects clients licenses servers domains year sel
      selectedIds inv).monthlyData) = _
  rw [hmd, foldl_nqadd_from]
  have h1 : (monthlyData yearE projects licenses servers domains year activeIds
      inv).map MonthlyAgg.totalHours
      = ((List.range 12).map (fun n => (n : ℤ))).map
          (fun k => nqsum ((yearE.filter (fun e => monthOf e.date = k)).map
            (fun e => getDurationInHours e.startTime e.endTime))) := by
    unfold monthlyData
    rw [List.map_map, List.map_map]
    exact List.map_congr_left (fun m _ =>
      monthAgg_totalHours_eq yearE projects licenses servers domains year activeIds inv m)
  rw [h1]
  have hnd : ((List.range 12).map (fun n : ℕ => (n : ℤ))).Nodup := by
    refine List.Nodup.map ?_ (List.nodup_range 12)
    intro a b h
    simpa using h
  have hcov : ∀ e ∈ yearE, monthOf e.date ∈ (List.range 12).map (fun n : ℕ => (n : ℤ)) := by
    intro e _
    have hb := monthOf_bounds e.date
    refine List.mem_map.mpr ⟨(monthOf e.date).toNat, ?_, ?_⟩
    · exact List.mem_range.mpr (by omega)
    · omega
  have hb : nqsum (((List.range 12).map (fun n : ℕ => (n : ℤ))).map
        (fun k => nqsum ((yearE.filter (fun e => monthOf e.date = k)).map
          (fun e => getDurationInHours e.startTime e.endTime))))
      = nqsum (yearE.map (fun e => getDurationInHours e.startTime e.endTime)) :=
    nqsum_buckets (fun e : TimeEntry => monthOf e.date)
      (fun e : TimeEntry => getDurationInHours e.startTime e.endTime)
      ((List.range 12).map (fun n : ℕ => (n : ℤ))) hnd yearE hcov
  exact (nqadd_zero_left _).trans hb

theorem flatMap_map_eq {α β γ : Type} (f : α → β) (F : β → List γ) (l : List α) :
    (l.map f).flatMap F = l.flatMap (fun x => F (f x)) := by
  induction l with
  | nil => rfl
  | cons a as ih => simp [ih]

theorem flatG_sortedGrouped (g : List (String × List (String × List TimeEntry))) :
    (flatG (sortedGrouped g)).Perm (flatG g) := by
  unfold sortedGrouped flatG
  rw [flatMap_map_eq]
  have h1 : ((g.mergeSort fun a b => strLe (pairKeyClient a) (pairKeyClient b)).flatMap
      (fun x => ((x.1, x.2.mergeSort fun a b =>
        strLe (pairKeyProj a) (pairKeyProj b)).2).flatMap (fun pb => pb.2))).Perm
      ((g.mergeSort fun a b => strLe (pairKeyClient a) (pairKeyClient b)).flatMap
        (fun kv => kv.2.flatMap (fun pb => pb.2))) := by
    refine List.Perm.flatMap_left _ ?_
    intro kv _
    exact (List.mergeSort_perm kv.2 _).flatMap_right _
  exact h1.trans ((List.mergeSort_perm g _).flatMap_right _)

/-- Claim C9 as amended: the export selects and date-sorts the filtered
entries, groups them by client name (with the "No Client / Internal"
fallback) then project name, and emits client and project blocks in ascending
order of the JS default-sort pair string (`key + "," + String(value)`), which
agrees with ascending lexical key order except when one key is a strict
prefix of another whose next character is below the comma; each block's
entries appear in ascending date order, each project total equals the sum of
its block's entry hours, the listed entries are exactly the export's entries
(when every active id is in the catalog, which the pipeline guarantees), and
the GRAND TOTAL value equals the sum of the hours of all exported entries. -/
theorem C9_export_structure (entries : List TimeEntry) (projects : List Project)
    (clients : List Client) (licenses servers domains : List CostItem) (year : ℤ)
    (sel : ClientSel) (selectedIds : List String) (inv : InvoiceFilter)
    (ex : List TimeEntry) (sg : List (String × List (String × List TimeEntry)))
    (hex : ex = exportEntriesOf entries year (processedData entries projects clients
      licenses servers domains year sel selectedIds inv).relevantProjectIds inv)
    (hsg : sg = sortedGrouped (groupedDataOf ex projects)) :
    ((sg.map pairKeyClient).Pairwise (fun a b => strLe a b = true))
    ∧ (∀ c ∈ sg, ((c.2.map pairKeyProj).Pairwise (fun a b => strLe a b = true)))
    ∧ (∀ c ∈ sg, ∀ pb ∈ c.2, (pb.2.map TimeEntry.date).Pairwise (fun a b => a ≤ b))
    ∧ (∀ c ∈ sg, ∀ pb ∈ c.2, projectTotal pb.2
        = nqsum (pb.2.map (fun e => getDurationInHours e.startTime e.endTime)))
    ∧ (flatG sg).Perm ex
    ∧ (processedData entries projects clients licenses servers domains year sel
        selectedIds inv).grandTotalHours
        = nqsum (ex.map (fun e => getDurationInHours e.startTime e.endTime)) := by
  have hrel : (processedData entries projects clients licenses servers domains year sel
      selectedIds inv).relevantProjectIds
      = activeProjectIdsOf selectedIds (availableProjects projects clients sel) := rfl
  have hexE : ex.Perm (yearEntriesOf entries year
      (activeProjectIdsOf selectedIds (availableProjects projects clients sel)) inv) := by
    rw [hex, hrel]
    exact List.mergeSort_perm _ _
  have hfind : ∀ e ∈ ex, (projects.find? (fun p => p.id = e.project)).isSome = true := by
    intro e he
    have he2 := hexE.mem_iff.mp he
    have hc := (List.mem_filter.mp he2).2
    simp only [Bool.and_eq_true] at hc
    have hcontains : e.project ∈ activeProjectIdsOf selectedIds
        (availableProjects projects clients sel) := by
      have := hc.1.2
      simpa using this
    rcases activeIds_in_catalog projects clients sel selectedIds e.project hcontains
      with ⟨p, hp, hpid⟩
    cases hf : projects.find? (fun p => p.id = e.project) with
    | some q => rfl
    | none =>
      rw [List.find?_eq_none] at hf
      exact absurd (by simp [hpid]) (hf p hp)
  have hsorted : ex.Pairwise (fun a b => a.date ≤ b.date) := by
    rw [hex]
    have h := @List.sorted_mergeSort TimeEntry
      (fun a b : TimeEntry => decide (a.date ≤ b.date))
      (fun a b c hab hbc => by
        simp only [decide_eq_true_eq] at hab hbc ⊢
        omega)
      (fun a b => by
        simp only [Bool.or_eq_true, decide_eq_true_eq]
        omega)
      (yearEntriesOf entries year (processedData entries projects clients licenses
        servers domains year sel selectedIds inv).relevantProjectIds inv)
    refine h.imp ?_
    intro a b hab
    simpa using hab
  have hgd := foldl_grouped_inv projects ex [] hsorted
    (by intro c hc; simp at hc) (by intro e _ c hc; simp at hc) hfind
  have hgd1 : blockOrdered (groupedDataOf ex projects) := hgd.1
  have hgd2 : (flatG (groupedDataOf ex projects)).Perm ex := by
    refine hgd.2.trans ?_
    simp [flatG]
  refine ⟨?_, ?_, ?_, ?_, ?_, ?_⟩
  · rw [hsg]
    have hs := @List.sorted_mergeSort (String × List (String × List TimeEntry))
      (fun a b => strLe (pairKeyClient a) (pairKeyClient b))
      (fun a b c => strLeKey_trans pairKeyClient a b c)
      (strLeKey_total pairKeyClient)
      (groupedDataOf ex projects)
    unfold sortedGrouped
    rw [List.map_map]
    refine List.pairwise_map.mpr ?_
    refine hs.imp ?_
    intro a b hab
    exact hab
  · intro c hc
    rw [hsg] at hc
    unfold sortedGrouped at hc
    rcases List.mem_map.mp hc with ⟨kv, _, rfl⟩
    refine List.pairwise_map.mpr ?_
    exact @List.sorted_mergeSort (String × List TimeEntry)
      (fun a b => strLe (pairKeyProj a) (pairKeyProj b))
      (fun a b c => strLeKey_trans pairKeyProj a b c)
      (strLeKey_total pairKeyProj) kv.2
  · intro c hc pb hpb
    rw [hsg] at hc
    unfold sortedGrouped at hc
    rcases List.mem_map.mp hc with ⟨kv, hkv, rfl⟩
    have hpb2 : pb ∈ kv.2 := ((List.mergeSort_perm kv.2 _).mem_iff).mp hpb
    have hkv2 : kv ∈ groupedDataOf ex projects :=
      ((List.mergeSort_perm (groupedDataOf ex projects) _).mem_iff).mp hkv
    exact hgd1 kv hkv2 pb hpb2
  · intro c _ pb _
    show List.foldl _ (some 0) _ = _
    rw [foldl_nqadd_eq_nqsum]
  · rw [hsg]
    exact (flatG_sortedGrouped (groupedDataOf ex projects)).trans hgd2
  · rw [grandTotalHours_eq]
    refine (nqsum_perm ?_).symm
    exact hexE.map _

unseal List.merge List.mergeSort in
/-- Claim C9, counterexample: the export emits client "B!" before client "B",
not in ascending lexical order of the group keys (under which "B" precedes
its extension "B!"). -/
theorem C9_uncompared_sort_counterexample :
    (sortedGrouped (groupedDataOf [entryCliB, entryCliBx]
        [projCliB, projCliBx])).map (fun c => c.1) = ["B!", "B"]
    ∧ strLt "B" "B!" = true := by
  refine ⟨by decide, by decide⟩

unseal List.merge List.mergeSort in
theorem C9_export_structure_witness :
    (exportEntriesOf [entryCliB] 2024 (processedData [entryCliB] [projCliB] [] [] [] []
        2024 ClientSel.all ["pb"] InvoiceFilter.all).relevantProjectIds
        InvoiceFilter.all
      = exportEntriesOf [entryCliB] 2024 (processedData [entryCliB] [projCliB] [] [] [] []
        2024 ClientSel.all ["pb"] InvoiceFilter.all).relevantProjectIds
        InvoiceFilter.all)
    ∧ (flatG (sortedGrouped (groupedDataOf (exportEntriesOf [entryCliB] 2024
        (processedData [entryCliB] [projCliB] [] [] [] [] 2024 ClientSel.all ["pb"]
          InvoiceFilter.all).relevantProjectIds InvoiceFilter.all) [projCliB]))).Perm
      (exportEntriesOf [entryCliB] 2024 (processedData [entryCliB] [projCliB] [] [] [] []
        2024 ClientSel.all ["pb"] InvoiceFilter.all).relevantProjectIds
        InvoiceFilter.all) := by
  refine ⟨rfl, ?_⟩
  exact (C9_export_structure [entryCliB] [projCliB] [] [] [] [] 2024 ClientSel.all
    ["pb"] InvoiceFilter.all _ _ rfl rfl).2.2.2.2.1
